import Mathlib

/-!
A verification development for the logistics cleanup-and-reconciliation
program (`main.py`).  The in-memory core of the program is shallowly
embedded: Python dictionaries of scalar values become Lean records or
association lists, Python `float` values become rationals, and fallible
operations (such as `float(...)` applied to a non-numeric string) return
`Except`/`Option` values.  Python string primitives used by the source
(`str.lower`, `str.upper`, `str.strip`, character-class filtering) are
modelled per character over ASCII.
-/

namespace Logistics

/-! ## Python string primitives -/

/-- ASCII lowercasing of one character, the per-character behaviour of
Python `str.lower` on ASCII input. -/
def charLower (c : Char) : Char :=
  if 'A' ≤ c ∧ c ≤ 'Z' then Char.ofNat (c.toNat + 32) else c

/-- ASCII uppercasing of one character, the per-character behaviour of
Python `str.upper` on ASCII input. -/
def charUpper (c : Char) : Char :=
  if 'a' ≤ c ∧ c ≤ 'z' then Char.ofNat (c.toNat - 32) else c

/-- Model of Python `str.lower` (ASCII, applied per character). -/
def strLower (s : String) : String := ⟨s.data.map charLower⟩

/-- Model of Python `str.upper` (ASCII, applied per character). -/
def strUpper (s : String) : String := ⟨s.data.map charUpper⟩

/-- The whitespace characters removed by Python `str.strip()`. -/
def pySpace (c : Char) : Bool :=
  c = ' ' || c = '\t' || c = '\n' || c = '\x0d' || c = '\x0b' || c = '\x0c'

/-- Model of Python `str.strip()`: drop leading and trailing whitespace. -/
def pyStrip (s : String) : String :=
  ⟨((s.data.dropWhile pySpace).reverse.dropWhile pySpace).reverse⟩

/-! ## Python scalar values

Scalars that can sit in an order's `weight` field (or any other JSON
field): strings, numbers, booleans and `null`.  Python numbers (ints and
floats) are modelled as rationals. -/

inductive PyScalar where
  | str : String → PyScalar
  | num : ℚ → PyScalar
  | bool : Bool → PyScalar
  | null : PyScalar
deriving DecidableEq

/-- Python truthiness of a scalar: `""`, `0`, `False` and `None` are
falsy, everything else is truthy. -/
def PyScalar.truthy : PyScalar → Bool
  | .str s => s ≠ ""
  | .num q => q ≠ 0
  | .bool b => b
  | .null => false

/-- Numeric value of a list of decimal digit characters. -/
def natOfDigits (cs : List Char) : ℕ :=
  cs.foldl (fun a c => a * 10 + (c.toNat - 48)) 0

/-- Parse an unsigned decimal literal (`"12"`, `"12.5"`, `"12."`,
`".5"`); exponent and special forms of Python float literals are not
modelled.  Returns `none` exactly when the character list is not such a
literal. -/
def parseUnsigned (cs : List Char) : Option ℚ :=
  let ip := cs.takeWhile (fun c => c ≠ '.')
  let rest := cs.dropWhile (fun c => c ≠ '.')
  if ip.all Char.isDigit then
    match rest with
    | [] => if ip ≠ [] then some (natOfDigits ip) else none
    | _ :: frac =>
        if frac.all Char.isDigit ∧ (ip ≠ [] ∨ frac ≠ []) then
          some ((natOfDigits ip : ℚ) + (natOfDigits frac : ℚ) / 10 ^ frac.length)
        else none
  else none

/-- Parse a signed decimal literal, as accepted by Python `float(str)`
(surrounding whitespace is handled by the caller). -/
def parseDecimal (s : String) : Option ℚ :=
  match s.data with
  | '+' :: cs => parseUnsigned cs
  | '-' :: cs => (parseUnsigned cs).map Neg.neg
  | cs => parseUnsigned cs

/-- Model of Python `float(x)` on a scalar: numbers pass through,
booleans become `0`/`1`, strings are parsed (with surrounding
whitespace stripped), and anything else — in particular a non-numeric
string or `None` — raises, modelled as `none`. -/
def pyFloat : PyScalar → Option ℚ
  | .num q => some q
  | .bool b => some (if b then 1 else 0)
  | .str s => parseDecimal (pyStrip s)
  | .null => none

/-! ## Nested values and `normalize_keys`

`normalize_keys` recursively lowercases every dictionary key.  A Python
dictionary is modelled as an association list in insertion order;
building a dictionary by comprehension is modelled by repeated
`upsertVal` (update-in-place on an existing key, append otherwise),
which is Python's dictionary insertion behaviour. -/

inductive PyVal where
  | prim : PyScalar → PyVal
  | arr : List PyVal → PyVal
  | dict : List (String × PyVal) → PyVal

/-- Insert key `k` with value `v` into a dictionary: if the key is
present its value is updated in place, otherwise the pair is appended
(Python dict assignment). -/
def upsertVal {β : Type} (k : String) (v : β) : List (String × β) → List (String × β)
  | [] => [(k, v)]
  | p :: rest => if p.1 = k then (p.1, v) :: rest else p :: upsertVal k v rest

/-- Build a dictionary from a pair sequence by repeated insertion
(the semantics of a Python dict comprehension; colliding keys keep the
first position and the last value). -/
def dictFromPairs {β : Type} (ps : List (String × β)) : List (String × β) :=
  ps.foldl (fun acc kv => upsertVal kv.1 kv.2 acc) []

mutual

/-- `normalize_keys` from `main.py`: recursively lowercase all dict
keys; lists are mapped over, scalars are unchanged. -/
def normalize_keys : PyVal → PyVal
  | .prim s => .prim s
  | .arr xs => .arr (normKeysList xs)
  | .dict ps => .dict (dictFromPairs (normKeysPairs ps))

/-- `normalize_keys` mapped over the elements of a list value. -/
def normKeysList : List PyVal → List PyVal
  | [] => []
  | x :: xs => normalize_keys x :: normKeysList xs

/-- The pair sequence of the dict comprehension inside
`normalize_keys`: each key is lowercased, each value is normalized. -/
def normKeysPairs : List (String × PyVal) → List (String × PyVal)
  | [] => []
  | (k, v) :: ps => (strLower k, normalize_keys v) :: normKeysPairs ps

end

/-- Association-list lookup, the model of Python `dict.get`. -/
def alookup {β : Type} (l : List (String × β)) (k : String) : Option β :=
  (l.find? (fun p => p.1 = k)).map (fun p => p.2)

/-! ## Orders

A raw order record, as seen by `normalize_orders` after its
`normalize_keys` call: the view of the (already key-lowercased)
dictionary restricted to the keys the function reads.  An absent key is
`none`.  Per the program's input contract the identifier, city,
payment, product, deadline and address fields hold strings; the
`weight` field holds an arbitrary scalar, since `normalize_orders`
passes it through without coercion. -/

structure RawOrder where
  orderid : Option String := none
  order_id : Option String := none
  order : Option String := none
  city : Option String := none
  paymenttype : Option String := none
  payment : Option String := none
  producttype : Option String := none
  weight : Option PyScalar := none
  deadline : Option String := none
  address : Option String := none
deriving DecidableEq

/-- A normalized order, the record built by `normalize_orders`. -/
structure NOrder where
  orderid : String
  city : String
  paymenttype : String
  producttype : String
  weight : PyScalar
  deadline : String
  address : String
deriving DecidableEq

/-- Python `a or b` where `a` is an optional string (a `dict.get`
result): `b` when `a` is absent or empty, else the string. -/
def pyOrStr (a : Option String) (b : String) : String :=
  match a with
  | some s => if s ≠ "" then s else b
  | none => b

/-- Normalization of one order record (the loop body of
`normalize_orders`): identifier from the `orderid`/`order_id`/`order`
fallback chain, city through the zones map (case-insensitively),
payment from the `paymenttype`/`payment` fallback chain, weight kept
as-is (default `0` when absent), remaining fields stripped strings. -/
def normalizeOrder (zones_map : List (String × String)) (o : RawOrder) : NOrder :=
  let order_id := pyStrip (pyOrStr o.orderid (pyOrStr o.order_id (pyOrStr o.order "")))
  let city_raw := pyStrip (pyOrStr o.city "")
  let city := (alookup zones_map (strLower city_raw)).getD city_raw
  let payment_type := pyOrStr (some (pyStrip (pyOrStr o.paymenttype ""))) (pyStrip (pyOrStr o.payment ""))
  let product_type := pyStrip (pyOrStr o.producttype "")
  let weight := o.weight.getD (.num 0)
  let deadline := pyStrip (pyOrStr o.deadline "")
  let address := pyStrip (pyOrStr o.address "")
  ⟨order_id, city, payment_type, product_type, weight, deadline, address⟩

/-- `normalize_orders` from `main.py` (after its `normalize_keys`
call, which the `RawOrder` view already accounts for). -/
def normalize_orders (orders : List RawOrder) (zones_map : List (String × String)) : List NOrder :=
  orders.map (normalizeOrder zones_map)

/-! ## Deduplication -/

/-- Loop of `dedup`: `seen` is the insertion-ordered dictionary of
first occurrences keyed by `orderid`, `ws` the warning list.  A repeat
of a seen identifier is dropped; if both addresses are non-empty and
differ, a conflicting-address warning is appended. -/
def dedupGo : List NOrder → List NOrder → List String → List NOrder × List String
  | [], seen, ws => (seen, ws)
  | o :: rest, seen, ws =>
    match seen.find? (fun s => s.orderid = o.orderid) with
    | none => dedupGo rest (seen ++ [o]) ws
    | some s =>
        dedupGo rest seen
          (ws ++ (if o.address ≠ "" ∧ s.address ≠ "" ∧ o.address ≠ s.address then
                    ["Conflicting address for order " ++ o.orderid] else []))

/-- `dedup` from `main.py`: keep the first occurrence per identifier,
warn on conflicting non-empty addresses.  Returns
`(clean_orders, warnings)`. -/
def dedup (orders : List NOrder) : List NOrder × List String :=
  dedupGo orders [] []

/-! ## Couriers and the assignment engine -/

/-- A courier record, the view of the (already key-lowercased)
dictionary restricted to the keys `plan_assignments` reads.  Per the
program's input contract `dailycapacity` is numeric (optional) and
`priority` an optional integer. -/
structure PCourier where
  courierid : String
  zonescovered : List String := []
  acceptscod : Bool := false
  dailycapacity : Option ℚ := none
  priority : Option ℤ := none
  exclusions : List String := []
deriving DecidableEq

/-- `float(c.get("dailycapacity") or 0)`: the declared capacity, `0`
when the key is absent (a present numeric `0` is falsy and also maps
to `0`). -/
def effCapacity (c : PCourier) : ℚ := c.dailycapacity.getD 0

/-- `c.get("priority", 10**9)`: the declared priority, or the sentinel
`10 ^ 9` when none is declared. -/
def effPriority (c : PCourier) : ℤ := c.priority.getD (10 ^ 9)

/-- The capacity-usage dictionary: courier identifier to cumulative
assigned weight. -/
abbrev Usage := List (String × ℚ)

/-- Look up a courier's cumulative usage (`capacity_usage[cid]`; the
`0` default is never exercised by the program, whose usage dictionary
is keyed by every roster courier). -/
def qlookup (u : Usage) (k : String) : ℚ :=
  ((u.find? (fun p => p.1 = k)).map (fun p => p.2)).getD 0

/-- `capacity_usage[cid] += w`. -/
def usageAdd (u : Usage) (k : String) (w : ℚ) : Usage :=
  u.map (fun p => if p.1 = k then (p.1, p.2 + w) else p)

/-- `{c["courierid"]: 0 for c in couriers}`. -/
def usageInit (couriers : List PCourier) : Usage :=
  couriers.foldl (fun acc c => upsertVal c.courierid 0 acc) []

/-- Stable insertion into a sorted list w.r.t. a strict comparator:
the new element goes before the first element not strictly below it. -/
def insSorted {α : Type} (lt : α → α → Bool) (x : α) : List α → List α
  | [] => [x]
  | y :: ys => if lt y x then y :: insSorted lt x ys else x :: y :: ys

/-- Stable sort by a strict comparator (the model of Python `sorted`
with a key function: equal keys keep their input order). -/
def isort {α : Type} (lt : α → α → Bool) : List α → List α
  | [] => []
  | x :: xs => insSorted lt x (isort lt xs)

/-- Comparator for `sorted(couriers, key=lambda c: c.get("priority", 10**9))`. -/
def courierPrioLt (a b : PCourier) : Bool := effPriority a < effPriority b

/-- Comparator for `sorted(cap_ok, key=lambda c: (capacity_usage[...], c.get("priority", 10**9)))`. -/
def selKeyLt (u : Usage) (a b : PCourier) : Bool :=
  qlookup u a.courierid < qlookup u b.courierid ∨
    (qlookup u a.courierid = qlookup u b.courierid ∧ effPriority a < effPriority b)

/-- Filter 1, zone coverage: `city in c.get("zonescovered", [])`. -/
def zoneFilter (city : String) (cs : List PCourier) : List PCourier :=
  cs.filter (fun c => c.zonescovered.contains city)

/-- Filter 2, COD acceptance:
`(payment != "cod") or c.get("acceptscod", False)`. -/
def codFilter (payment : String) (cs : List PCourier) : List PCourier :=
  cs.filter (fun c => payment ≠ "cod" ∨ c.acceptscod)

/-- Filter 3, product exclusion:
`product not in [str(e).lower() for e in c.get("exclusions", [])]`. -/
def exclFilter (product : String) (cs : List PCourier) : List PCourier :=
  cs.filter (fun c => ¬ (c.exclusions.map strLower).contains product)

/-- Filter 4, capacity:
`capacity_usage[c["courierid"]] + weight <= float(c.get("dailycapacity") or 0)`. -/
def capFilter (u : Usage) (w : ℚ) (cs : List PCourier) : List PCourier :=
  cs.filter (fun c => qlookup u c.courierid + w ≤ effCapacity c)

/-- `sorted(cap_ok, key=...)[0]`: the head of the stably-sorted
survivor list (`none` models the `IndexError` on an empty list, which
the program never reaches). -/
def chosenCourier (u : Usage) (cap_ok : List PCourier) : Option PCourier :=
  (isort (selKeyLt u) cap_ok).head?

/-- `weight = float(o.get("weight") or 0)`. -/
def effWeight (o : NOrder) : Option ℚ :=
  pyFloat (if o.weight.truthy then o.weight else .num 0)

/-- The mutable state of the `plan_assignments` loop. -/
structure PlanState where
  assignments : List (String × String)
  unassigned : List String
  usage : Usage
  reasons : List (String × String)
deriving DecidableEq

/-- The four progressively filtered candidate sets of one order. -/
def chainZ (cs : List PCourier) (o : NOrder) : List PCourier :=
  zoneFilter o.city cs

/-- Candidates surviving the zone and COD filters. -/
def chainC (cs : List PCourier) (o : NOrder) : List PCourier :=
  codFilter (strLower o.paymenttype) (chainZ cs o)

/-- Candidates surviving the zone, COD and exclusion filters. -/
def chainE (cs : List PCourier) (o : NOrder) : List PCourier :=
  exclFilter (strLower o.producttype) (chainC cs o)

/-- Candidates surviving all four filters at usage `u` and weight `w`. -/
def chainK (cs : List PCourier) (o : NOrder) (u : Usage) (w : ℚ) : List PCourier :=
  capFilter u w (chainE cs o)

/-- Record an order as unassigned with the given reason
(`unassigned.append` followed by `unassigned_reasons[oid] = reason`). -/
def markUnassigned (st : PlanState) (oid reason : String) : PlanState :=
  { st with unassigned := st.unassigned ++ [oid],
            reasons := upsertVal oid reason st.reasons }

/-- Record an assignment and immediately add the order weight to the
chosen courier's usage. -/
def recordAssign (st : PlanState) (oid : String) (chosen : PCourier) (weight : ℚ) : PlanState :=
  { st with assignments := st.assignments ++ [(oid, chosen.courierid)],
            usage := usageAdd st.usage chosen.courierid weight }

/-- The body of the `plan_assignments` loop for one order:
compute the weight (`float` may raise, modelled as `Except.error`),
run the four filters in sequence stopping at the first empty candidate
set, otherwise assign to the least-used surviving courier (priority
tie-break) and add the weight to its usage. -/
def planStep (couriers_sorted : List PCourier) (st : PlanState) (o : NOrder) :
    Except String PlanState :=
  match effWeight o with
  | none => .error "ValueError: could not convert string to float"
  | some weight =>
    if chainZ couriers_sorted o = [] then
      .ok (markUnassigned st o.orderid "Zone not covered")
    else if strLower o.paymenttype = "cod" ∧ chainC couriers_sorted o = [] then
      .ok (markUnassigned st o.orderid "COD not accepted")
    else if chainE couriers_sorted o = [] then
      .ok (markUnassigned st o.orderid ("Excluded product type: " ++ o.producttype))
    else if chainK couriers_sorted o st.usage weight = [] then
      .ok (markUnassigned st o.orderid "Capacity exceeded")
    else
      match chosenCourier st.usage (chainK couriers_sorted o st.usage weight) with
      | none => .error "IndexError: list index out of range"
      | some chosen => .ok (recordAssign st o.orderid chosen weight)

/-- Run the `plan_assignments` loop over a list of orders. -/
def planRun (couriers_sorted : List PCourier) (st : PlanState) :
    List NOrder → Except String PlanState
  | [] => .ok st
  | o :: os =>
    match planStep couriers_sorted st o with
    | .error e => .error e
    | .ok st' => planRun couriers_sorted st' os

/-- The initial planning state: no assignments, usage zero for every
roster courier. -/
def planInit (couriers : List PCourier) : PlanState :=
  ⟨[], [], usageInit couriers, []⟩

/-- `plan_assignments` from `main.py` (after its `normalize_keys`
calls, which the record views already account for).  The returned
state carries `(assignments, unassigned, capacity_usage,
unassigned_reasons)`. -/
def plan_assignments (orders : List NOrder) (couriers : List PCourier) :
    Except String PlanState :=
  planRun (isort courierPrioLt couriers) (planInit couriers) orders

/-- The state of `plan_assignments` after processing the first `n`
orders of a run. -/
def planPrefix (orders : List NOrder) (couriers : List PCourier) (n : ℕ) :
    Except String PlanState :=
  planRun (isort courierPrioLt couriers) (planInit couriers) (orders.take n)

/-! ## Reconciliation -/

/-- A delivery-scan row, the view of the (already key-lowercased) CSV
row restricted to the keys `reconcile` reads. -/
structure ScanRow where
  orderid : Option String := none
  courierid : Option String := none
  deliveredat : Option String := none
deriving DecidableEq

/-- The character class kept by `re.sub(r"[^A-Za-z0-9-]", "", ...)`:
ASCII letters, digits and the hyphen. -/
def keepIdChar (c : Char) : Bool := c.isAlpha || c.isDigit || c = '-'

/-- Scan-identifier normalization:
`re.sub(r"[^A-Za-z0-9-]", "", s.upper().strip())`. -/
def scanNorm (s : String) : String :=
  ⟨(pyStrip (strUpper s)).data.filter keepIdChar⟩

/-- Model of `datetime.strptime(s, "%Y-%m-%d %H:%M")`, encoded as a
single natural so that the `datetime` comparison becomes `<`
(lexicographic in year, month, day, hour, minute).  Field ranges are
checked; exact day-of-month calendar validation is elided. -/
def parseDT (s : String) : Option ℕ :=
  match s.data with
  | [y1, y2, y3, y4, '-', m1, m2, '-', d1, d2, ' ', h1, h2, ':', n1, n2] =>
    if ([y1, y2, y3, y4, m1, m2, d1, d2, h1, h2, n1, n2].all Char.isDigit) then
      let y := natOfDigits [y1, y2, y3, y4]
      let mo := natOfDigits [m1, m2]
      let da := natOfDigits [d1, d2]
      let h := natOfDigits [h1, h2]
      let mi := natOfDigits [n1, n2]
      if 1 ≤ mo ∧ mo ≤ 12 ∧ 1 ≤ da ∧ da ≤ 31 ∧ h ≤ 23 ∧ mi ≤ 59 then
        some ((((y * 13 + mo) * 32 + da) * 24 + h) * 60 + mi)
      else none
    else none
  | _ => none

/-- The known order identifiers:
`{o["orderid"] for o in orders_l if o.get("orderid")}`. -/
def knownIds (orders_l : List NOrder) : List String :=
  ((orders_l.map NOrder.orderid).filter (fun s => s ≠ "")).dedup

/-- `{a["orderid"]: a["courierid"] for a in assignments_l}`. -/
def assignMap (assignments : List (String × String)) : List (String × String) :=
  dictFromPairs assignments

/-- The mutable state of the `reconcile` scan loop.  `delivered` and
`seen_scan` are sets (membership-guarded append); the category lists
append freely and are deduplicated and sorted afterwards. -/
structure RecState where
  delivered : List String := []
  unexpected : List String := []
  misassigned : List String := []
  late : List String := []
  duplicate : List String := []
  seen_scan : List String := []
deriving DecidableEq

/-- The body of the `reconcile` loop for one scan row: normalize the
identifier (blank rows are skipped), then classify into unexpected /
duplicate / delivered / misassigned / late. -/
def recStep (order_ids : List String) (planned : List (String × String))
    (orders_l : List NOrder) (st : RecState) (row : ScanRow) : RecState :=
  let oid := scanNorm (row.orderid.getD "")
  let cid := pyStrip (row.courierid.getD "")
  let ts := pyStrip (row.deliveredat.getD "")
  if oid = "" then st
  else
    { delivered := if oid ∈ st.delivered then st.delivered else st.delivered ++ [oid],
      unexpected := st.unexpected ++ (if oid ∈ order_ids then [] else [oid]),
      duplicate := st.duplicate ++ (if oid ∈ st.seen_scan then [oid] else []),
      seen_scan := if oid ∈ st.seen_scan then st.seen_scan else st.seen_scan ++ [oid],
      misassigned := st.misassigned ++
        (match alookup planned oid with
         | some p => if p ≠ "" ∧ p ≠ cid then [oid] else []
         | none => []),
      late := st.late ++
        (match orders_l.find? (fun o => o.orderid = oid) with
         | some o =>
           if o.deadline ≠ "" ∧ ts ≠ "" then
             match parseDT o.deadline, parseDT ts with
             | some dl, some dv => if dl < dv then [oid] else []
             | _, _ => []
           else []
         | none => []) }

/-- The state of `reconcile` after its scan loop. -/
def recFinal (assignments : List (String × String)) (orders_l : List NOrder)
    (log_l : List ScanRow) : RecState :=
  log_l.foldl (recStep (knownIds orders_l) (assignMap assignments) orders_l) {}

/-- Strict lexicographic (code-point) comparison of strings, the order
used by Python `sorted` on strings. -/
def strLtB (a b : String) : Bool := decide (a < b)

/-- The five-category reconciliation report. -/
structure RecResult where
  unexpected : List String
  misassigned : List String
  late : List String
  duplicate : List String
  notDelivered : List String
deriving DecidableEq

/-- `reconcile` from `main.py` (after its `normalize_keys` calls,
which the record views already account for).  The `couriers` argument
is part of the interface but unused by the computation. -/
def reconcile (assignments : List (String × String)) (orders_l : List NOrder)
    (log_rows : List ScanRow) (couriers : List PCourier) : RecResult :=
  let fin := recFinal assignments orders_l log_rows
  { unexpected := isort strLtB fin.unexpected.dedup,
    misassigned := isort strLtB fin.misassigned.dedup,
    late := isort strLtB fin.late.dedup,
    duplicate := isort strLtB fin.duplicate.dedup,
    notDelivered := isort strLtB ((knownIds orders_l).filter (fun i => i ∉ fin.delivered)) }

/-! ## The whole core pipeline -/

/-- Whether a fallible computation completed. -/
def isOkB {α : Type} : Except String α → Bool
  | .ok _ => true
  | .error _ => false

/-- The core pipeline of `main`: normalize orders, deduplicate, plan,
reconcile; emits the contents of the three output artifacts. -/
def pipeline (raw_orders : List RawOrder) (zones_map : List (String × String))
    (couriers : List PCourier) (log_rows : List ScanRow) :
    Except String ((List NOrder × List String) × PlanState × RecResult) :=
  let orders_norm := normalize_orders raw_orders zones_map
  let cw := dedup orders_norm
  match plan_assignments cw.1 couriers with
  | .error e => .error e
  | .ok plan => .ok ((cw.1, cw.2), plan, reconcile plan.assignments cw.1 log_rows couriers)

/-! ## Helper lemmas: sorting -/

theorem mem_insSorted {α : Type} (lt : α → α → Bool) (x a : α) (l : List α) :
    a ∈ insSorted lt x l ↔ a = x ∨ a ∈ l := by
  induction l with
  | nil => simp [insSorted]
  | cons y ys ih =>
    rw [insSorted]
    by_cases h : lt y x = true
    · rw [if_pos h]
      simp only [List.mem_cons, ih]
      tauto
    · rw [if_neg h]
      simp only [List.mem_cons]

theorem mem_isort {α : Type} (lt : α → α → Bool) (a : α) (l : List α) :
    a ∈ isort lt l ↔ a ∈ l := by
  induction l with
  | nil => rfl
  | cons x xs ih =>
    rw [isort, mem_insSorted]
    simp [ih]

theorem insSorted_ne_nil {α : Type} (lt : α → α → Bool) (x : α) (l : List α) :
    insSorted lt x l ≠ [] := by
  cases l with
  | nil => simp [insSorted]
  | cons y ys =>
    rw [insSorted]
    by_cases h : lt y x = true
    · simp [if_pos h]
    · simp [if_neg h]

theorem isort_eq_nil_iff {α : Type} (lt : α → α → Bool) (l : List α) :
    isort lt l = [] ↔ l = [] := by
  cases l with
  | nil => simp [isort]
  | cons x xs =>
    rw [isort]
    simp [insSorted_ne_nil]

theorem pairwise_insSorted {α : Type} (lt : α → α → Bool)
    (hasym : ∀ a b, lt a b = true → lt b a = false)
    (htrans : ∀ x y z, lt z x = true → lt z y = false → lt y x = true)
    (x : α) (l : List α) (h : l.Pairwise (fun a b => lt b a = false)) :
    (insSorted lt x l).Pairwise (fun a b => lt b a = false) := by
  induction l with
  | nil => simp [insSorted]
  | cons y ys ih =>
    rw [List.pairwise_cons] at h
    rw [insSorted]
    by_cases hc : lt y x = true
    · rw [if_pos hc, List.pairwise_cons]
      refine ⟨?_, ih h.2⟩
      intro z hz
      rcases (mem_insSorted lt x z ys).mp hz with hz | hz
      · subst hz
        exact hasym _ _ hc
      · exact h.1 z hz
    · rw [if_neg hc, List.pairwise_cons]
      simp only [Bool.not_eq_true] at hc
      refine ⟨?_, List.pairwise_cons.mpr h⟩
      intro z hz
      rcases List.mem_cons.mp hz with hz | hz
      · subst hz
        exact hc
      · by_contra hzx
        simp only [Bool.not_eq_false] at hzx
        have := htrans x y z hzx (h.1 z hz)
        rw [this] at hc
        simp at hc

theorem pairwise_isort {α : Type} (lt : α → α → Bool)
    (hasym : ∀ a b, lt a b = true → lt b a = false)
    (htrans : ∀ x y z, lt z x = true → lt z y = false → lt y x = true)
    (l : List α) : (isort lt l).Pairwise (fun a b => lt b a = false) := by
  induction l with
  | nil => simp [isort]
  | cons x xs ih => exact pairwise_insSorted lt hasym htrans x _ ih

theorem isort_head_min {α : Type} (lt : α → α → Bool)
    (hasym : ∀ a b, lt a b = true → lt b a = false)
    (htrans : ∀ x y z, lt z x = true → lt z y = false → lt y x = true)
    (hirr : ∀ a, lt a a = false)
    (l : List α) (x : α) (t : List α) (he : isort lt l = x :: t) :
    ∀ y ∈ l, lt y x = false := by
  intro y hy
  have hmem : y ∈ x :: t := by
    rw [← he, mem_isort]
    exact hy
  have hpw := pairwise_isort lt hasym htrans l
  rw [he, List.pairwise_cons] at hpw
  rcases List.mem_cons.mp hmem with hyx | hyt
  · subst hyx
    exact hirr y
  · exact hpw.1 y hyt

/-! ## Helper lemmas: dictionaries -/

theorem mem_upsertVal {β : Type} (k : String) (v : β) (l : List (String × β))
    (p : String × β) (hp : p ∈ upsertVal k v l) : p = (k, v) ∨ p ∈ l := by
  induction l with
  | nil => simpa [upsertVal] using hp
  | cons q rest ih =>
    rw [upsertVal] at hp
    by_cases h : q.1 = k
    · rw [if_pos h] at hp
      rcases List.mem_cons.mp hp with hp | hp
      · left
        rw [hp, h]
      · right
        exact List.mem_cons_of_mem _ hp
    · rw [if_neg h] at hp
      rcases List.mem_cons.mp hp with hp | hp
      · right
        exact hp ▸ List.mem_cons_self _ _
      · rcases ih hp with hp | hp
        · exact Or.inl hp
        · exact Or.inr (List.mem_cons_of_mem _ hp)

theorem upsertVal_of_mem_keys {β : Type} (k : String) (v : β) (l : List (String × β))
    (h : k ∈ l.map Prod.fst) : (upsertVal k v l).map Prod.fst = l.map Prod.fst := by
  induction l with
  | nil => simp at h
  | cons q rest ih =>
    rw [upsertVal]
    by_cases hq : q.1 = k
    · rw [if_pos hq]
      simp
    · rw [if_neg hq]
      simp only [List.map_cons]
      rw [ih]
      simp only [List.map_cons, List.mem_cons] at h
      rcases h with h | h
      · exact absurd h.symm hq
      · exact h

theorem upsertVal_of_not_mem_keys {β : Type} (k : String) (v : β) (l : List (String × β))
    (h : k ∉ l.map Prod.fst) : upsertVal k v l = l ++ [(k, v)] := by
  induction l with
  | nil => rfl
  | cons q rest ih =>
    rw [upsertVal]
    simp only [List.map_cons, List.mem_cons] at h
    push_neg at h
    rw [if_neg (fun hq => h.1 hq.symm)]
    rw [ih h.2]
    rfl

theorem nodup_keys_upsertVal {β : Type} (k : String) (v : β) (l : List (String × β))
    (h : (l.map Prod.fst).Nodup) : ((upsertVal k v l).map Prod.fst).Nodup := by
  by_cases hk : k ∈ l.map Prod.fst
  · rw [upsertVal_of_mem_keys k v l hk]
    exact h
  · rw [upsertVal_of_not_mem_keys k v l hk]
    simp only [List.map_append, List.map_cons, List.map_nil]
    rw [List.nodup_append]
    exact ⟨h, List.nodup_singleton _, by simpa using hk⟩

theorem foldl_upsert_mem {β : Type} (ps : List (String × β)) (acc : List (String × β))
    (p : String × β)
    (hp : p ∈ ps.foldl (fun a kv => upsertVal kv.1 kv.2 a) acc) : p ∈ acc ∨ p ∈ ps := by
  induction ps generalizing acc with
  | nil => exact Or.inl hp
  | cons q qs ih =>
    rw [List.foldl_cons] at hp
    rcases ih (upsertVal q.1 q.2 acc) hp with hp | hp
    · rcases mem_upsertVal q.1 q.2 acc p hp with hp | hp
      · right
        rw [hp]
        exact List.mem_cons_self _ _
      · exact Or.inl hp
    · exact Or.inr (List.mem_cons_of_mem _ hp)

theorem foldl_upsert_keys_nodup {β : Type} (ps : List (String × β)) (acc : List (String × β))
    (h : (acc.map Prod.fst).Nodup) :
    (((ps.foldl (fun a kv => upsertVal kv.1 kv.2 a) acc)).map Prod.fst).Nodup := by
  induction ps generalizing acc with
  | nil => exact h
  | cons q qs ih =>
    rw [List.foldl_cons]
    exact ih _ (nodup_keys_upsertVal q.1 q.2 acc h)

theorem foldl_upsert_of_nodup {β : Type} (ps : List (String × β)) (acc : List (String × β))
    (h : ((acc ++ ps).map Prod.fst).Nodup) :
    ps.foldl (fun a kv => upsertVal kv.1 kv.2 a) acc = acc ++ ps := by
  induction ps generalizing acc with
  | nil => simp
  | cons q qs ih =>
    rw [List.foldl_cons]
    have hq : q.1 ∉ acc.map Prod.fst := by
      simp only [List.map_append, List.nodup_append] at h
      intro hmem
      exact h.2.2 hmem (by simp)
    rw [upsertVal_of_not_mem_keys q.1 q.2 acc hq]
    have hperm : ((acc ++ [(q.1, q.2)]) ++ qs).map Prod.fst = ((acc ++ q :: qs)).map Prod.fst := by
      simp
    rw [ih (acc ++ [(q.1, q.2)]) (by rw [hperm]; simpa using h)]
    simp

theorem dictFromPairs_mem {β : Type} (ps : List (String × β)) (p : String × β)
    (hp : p ∈ dictFromPairs ps) : p ∈ ps := by
  rcases foldl_upsert_mem ps [] p hp with h | h
  · simp at h
  · exact h

theorem dictFromPairs_keys_nodup {β : Type} (ps : List (String × β)) :
    ((dictFromPairs ps).map Prod.fst).Nodup :=
  foldl_upsert_keys_nodup ps [] (by simp)

theorem dictFromPairs_of_nodup {β : Type} (ps : List (String × β))
    (h : (ps.map Prod.fst).Nodup) : dictFromPairs ps = ps :=
  foldl_upsert_of_nodup ps [] (by simpa using h)

/-! ## Helper lemmas: lowercasing is idempotent -/

theorem toNat_ofNat_valid (n : ℕ) (h : n.isValidChar) : (Char.ofNat n).toNat = n := by
  rw [Char.ofNat, dif_pos h]
  rfl

theorem char_le_iff_toNat (a b : Char) : a ≤ b ↔ a.toNat ≤ b.toNat := Iff.rfl

theorem charLower_idem (c : Char) : charLower (charLower c) = charLower c := by
  unfold charLower
  by_cases h : 'A' ≤ c ∧ c ≤ 'Z'
  · rw [if_pos h]
    have h1 : 65 ≤ c.toNat := (char_le_iff_toNat 'A' c).mp h.1
    have h2 : c.toNat ≤ 90 := (char_le_iff_toNat c 'Z').mp h.2
    have hv : (c.toNat + 32).isValidChar := by
      left
      omega
    have ht : (Char.ofNat (c.toNat + 32)).toNat = c.toNat + 32 := toNat_ofNat_valid _ hv
    have hno : ¬ ('A' ≤ Char.ofNat (c.toNat + 32) ∧ Char.ofNat (c.toNat + 32) ≤ 'Z') := by
      intro hc
      have hz := (char_le_iff_toNat (Char.ofNat (c.toNat + 32)) 'Z').mp hc.2
      rw [ht] at hz
      have hZ90 : ('Z' : Char).toNat = 90 := by decide
      omega
    rw [if_neg hno]
  · rw [if_neg h, if_neg h]

theorem strLower_idem (s : String) : strLower (strLower s) = strLower s := by
  unfold strLower
  cases s with
  | mk data =>
    simp only [List.map_map]
    congr 1
    induction data with
    | nil => rfl
    | cons c cs ih =>
      simp only [List.map_cons, Function.comp_apply, charLower_idem, List.map_map] at ih ⊢
      rw [ih]

/-! ## C9 development: `normalize_keys` is idempotent -/

theorem normKeysList_cons (x : PyVal) (xs : List PyVal) :
    normKeysList (x :: xs) = normalize_keys x :: normKeysList xs := by
  rw [normKeysList]

theorem normKeysPairs_cons (q : String × PyVal) (ps : List (String × PyVal)) :
    normKeysPairs (q :: ps) = (strLower q.1, normalize_keys q.2) :: normKeysPairs ps := by
  obtain ⟨k, v⟩ := q
  rw [normKeysPairs]

theorem normKeysList_comp (xs : List PyVal)
    (h : ∀ x ∈ xs, normalize_keys (normalize_keys x) = normalize_keys x) :
    normKeysList (normKeysList xs) = normKeysList xs := by
  induction xs with
  | nil => rfl
  | cons x rest ih =>
    rw [normKeysList_cons, normKeysList_cons]
    rw [h x (List.mem_cons_self _ _)]
    rw [ih (fun y hy => h y (List.mem_cons_of_mem _ hy))]

theorem normKeysPairs_mem (ps : List (String × PyVal)) (p : String × PyVal)
    (hp : p ∈ normKeysPairs ps) :
    ∃ q ∈ ps, p = (strLower q.1, normalize_keys q.2) := by
  induction ps with
  | nil => simp [normKeysPairs] at hp
  | cons q rest ih =>
    rw [normKeysPairs_cons] at hp
    rcases List.mem_cons.mp hp with hp | hp
    · exact ⟨q, List.mem_cons_self _ _, hp⟩
    · obtain ⟨r, hr, he⟩ := ih hp
      exact ⟨r, List.mem_cons_of_mem _ hr, he⟩

theorem normKeysPairs_eq_self (ps : List (String × PyVal))
    (h : ∀ p ∈ ps, strLower p.1 = p.1 ∧ normalize_keys p.2 = p.2) :
    normKeysPairs ps = ps := by
  induction ps with
  | nil => rfl
  | cons q rest ih =>
    rw [normKeysPairs_cons]
    have hq := h q (List.mem_cons_self _ _)
    rw [hq.1, hq.2, ih (fun r hr => h r (List.mem_cons_of_mem _ hr))]

theorem normalize_keys_idem_aux :
    ∀ n : ℕ, ∀ v : PyVal, sizeOf v ≤ n →
      normalize_keys (normalize_keys v) = normalize_keys v := by
  intro n
  induction n with
  | zero =>
    intro v hv
    exfalso
    cases v <;> simp_arith at hv
  | succ n ih =>
    intro v hv
    match v with
    | .prim s => rfl
    | .arr xs =>
      rw [normalize_keys, normalize_keys]
      have hsz : sizeOf xs ≤ n := by
        simp_arith at hv
        omega
      congr 1
      apply normKeysList_comp
      intro x hx
      have : sizeOf x < sizeOf xs := List.sizeOf_lt_of_mem hx
      exact ih x (by omega)
    | .dict ps =>
      rw [normalize_keys, normalize_keys]
      have hsz : sizeOf ps ≤ n := by
        simp_arith at hv
        omega
      congr 1
      have hpoint : ∀ p ∈ dictFromPairs (normKeysPairs ps),
          strLower p.1 = p.1 ∧ normalize_keys p.2 = p.2 := by
        intro p hp
        have hp' : p ∈ normKeysPairs ps := dictFromPairs_mem _ p hp
        obtain ⟨q, hq, he⟩ := normKeysPairs_mem ps p hp'
        subst he
        refine ⟨strLower_idem q.1, ?_⟩
        have h1 : sizeOf q < sizeOf ps := List.sizeOf_lt_of_mem hq
        have h2 : sizeOf q.2 < sizeOf q := by
          cases q with
          | mk a b => simp_arith
        exact ih q.2 (by omega)
      rw [normKeysPairs_eq_self _ hpoint]
      exact dictFromPairs_of_nodup _ (dictFromPairs_keys_nodup (normKeysPairs ps))

/-- C9: for every arbitrarily nested structure of mappings, sequences
and scalars, applying key normalization (recursive lower-casing of
mapping keys) twice yields the same result as applying it once. -/
theorem c9_normalize_keys_idempotent (v : PyVal) :
    normalize_keys (normalize_keys v) = normalize_keys v :=
  normalize_keys_idem_aux (sizeOf v) v (le_refl _)

/-! ## C10 development: deduplication keeps the first record per
identifier, the blank identifier included -/

theorem find?_append_single (l : List NOrder) (o : NOrder) (p : NOrder → Bool) :
    (l ++ [o]).find? p =
      match l.find? p with
      | some s => some s
      | none => if p o then some o else none := by
  induction l with
  | nil =>
    simp only [List.nil_append, List.find?_nil, List.find?_cons]
    cases hp : p o <;> simp [hp]
  | cons q rest ih =>
    by_cases hq : p q
    · simp [List.find?, hq]
    · simp only [List.cons_append, List.find?]
      rw [Bool.eq_false_iff.mpr hq]
      exact ih

theorem filter_eq_nil_of_find?_eq_none (l : List NOrder) (p : NOrder → Bool)
    (h : l.find? p = none) : l.filter p = [] := by
  rw [List.filter_eq_nil_iff]
  intro a ha
  rw [List.find?_eq_none] at h
  exact fun hpa => (h a ha) hpa

theorem dedupGo_filter (x : String) (rest : List NOrder) :
    ∀ (seen : List NOrder) (ws : List String),
      (dedupGo rest seen ws).1.filter (fun o => o.orderid = x) =
        seen.filter (fun o => o.orderid = x) ++
          (if (seen.find? (fun s => s.orderid = x)).isSome then []
           else (rest.filter (fun o => o.orderid = x)).take 1) := by
  induction rest with
  | nil =>
    intro seen ws
    rw [dedupGo]
    by_cases h : (seen.find? (fun s => s.orderid = x)).isSome
    · simp [h]
    · simp [h]
  | cons o rest ih =>
    intro seen ws
    rw [dedupGo]
    cases hfind : seen.find? (fun s => s.orderid = o.orderid) with
    | none =>
      simp only []
      rw [ih (seen ++ [o]) ws]
      by_cases hx : o.orderid = x
      · subst hx
        have hnone : (seen.find? (fun s => s.orderid = o.orderid)).isSome = false := by
          rw [hfind]
          rfl
        have hfilter : seen.filter (fun s => s.orderid = o.orderid) = [] :=
          filter_eq_nil_of_find?_eq_none seen _ hfind
        rw [List.filter_append, hfilter]
        have happ : ((seen ++ [o]).find? (fun s => s.orderid = o.orderid)).isSome = true := by
          rw [find?_append_single, hfind]
          simp
        rw [if_pos (by rw [happ]), hnone]
        rw [if_neg (by simp)]
        simp [List.filter_cons]
      · have hkeep : (seen ++ [o]).find? (fun s => s.orderid = x) =
            seen.find? (fun s => s.orderid = x) := by
          rw [find?_append_single]
          cases hs : seen.find? (fun s => s.orderid = x) with
          | some s => rfl
          | none =>
            rw [if_neg (by simpa using hx)]
        rw [List.filter_append, hkeep]
        have hfo : seen.filter (fun o => o.orderid = x) ++
            [o].filter (fun o => o.orderid = x) = seen.filter (fun o => o.orderid = x) := by
          simp [List.filter_cons, hx]
        rw [hfo]
        have hco : (o :: rest).filter (fun o => o.orderid = x) =
            rest.filter (fun o => o.orderid = x) := by
          simp [List.filter_cons, hx]
        rw [hco]
    | some s =>
      simp only []
      rw [ih seen _]
      by_cases hx : o.orderid = x
      · subst hx
        have hsome : (seen.find? (fun s => s.orderid = o.orderid)).isSome = true := by
          rw [hfind]
          rfl
        rw [if_pos (by rw [hsome]), if_pos (by rw [hsome])]
      · have hco : (o :: rest).filter (fun o => o.orderid = x) =
            rest.filter (fun o => o.orderid = x) := by
          simp [List.filter_cons, hx]
        rw [hco]

/-- C10: when an input to `dedup` contains two or more orders with the
blank identifier, only the first blank-identifier order is retained:
the blank identifier is an ordinary identity key, so every later
identifier-less order is dropped. -/
theorem c10_dedup_blank_identifier (orders : List NOrder)
    (h : 2 ≤ (orders.filter (fun o => o.orderid = "")).length) :
    (dedup orders).1.filter (fun o => o.orderid = "") =
      (orders.filter (fun o => o.orderid = "")).take 1 := by
  have hgo := dedupGo_filter "" orders [] []
  rw [dedup]
  rw [hgo]
  simp [List.find?]

/-- Concrete instance of C10: two identifier-less orders with
different addresses; only the first is kept. -/
theorem c10_witness :
    2 ≤ (([⟨"", "", "", "", .num 1, "", "123 Main St"⟩,
           ⟨"", "", "", "", .num 1, "", "456 Side Ave"⟩] :
            List NOrder).filter (fun o => o.orderid = "")).length ∧
    (dedup [⟨"", "", "", "", .num 1, "", "123 Main St"⟩,
            ⟨"", "", "", "", .num 1, "", "456 Side Ave"⟩]).1.filter
        (fun o => o.orderid = "") =
      (([⟨"", "", "", "", .num 1, "", "123 Main St"⟩,
         ⟨"", "", "", "", .num 1, "", "456 Side Ave"⟩] :
          List NOrder).filter (fun o => o.orderid = "")).take 1 :=
  ⟨by with_unfolding_all decide,
   c10_dedup_blank_identifier _ (by with_unfolding_all decide)⟩

/-! ## C8 development: the identifier fallback chain -/

/-- The specification's description of the normalized identifier: the
first non-blank (non-empty) value among the `orderid`, `order_id`,
`order` keys, and blank when none of those keys holds a non-blank
value (absent keys are dropped; the selected value is trimmed by the
caller). -/
def specFirstNonEmptyId (r : RawOrder) : String :=
  ((([r.orderid, r.order_id, r.order].filterMap id).find? (fun s => s ≠ "")).getD "")

theorem foldr_pyOrStr (l : List (Option String)) :
    List.foldr pyOrStr "" l = ((l.filterMap id).find? (fun s => s ≠ "")).getD "" := by
  induction l with
  | nil => rfl
  | cons a rest ih =>
    cases a with
    | none => simpa [pyOrStr, List.filterMap] using ih
    | some s =>
      by_cases hs : s = ""
      · subst hs
        simpa [pyOrStr, List.filterMap_cons, List.find?] using ih
      · simp [pyOrStr, hs, List.filterMap_cons, List.find?]

theorem normalizeOrder_orderid (zm : List (String × String)) (r : RawOrder) :
    (normalizeOrder zm r).orderid = pyStrip (specFirstNonEmptyId r) := by
  show pyStrip (pyOrStr r.orderid (pyOrStr r.order_id (pyOrStr r.order ""))) = _
  have hchain : pyOrStr r.orderid (pyOrStr r.order_id (pyOrStr r.order "")) =
      List.foldr pyOrStr "" [r.orderid, r.order_id, r.order] := rfl
  rw [hchain, foldr_pyOrStr]
  rfl

/-- C8: for every raw order record, the normalized identifier equals
the first non-blank value among the keys `orderid`, `order_id`,
`order` (keys already lower-cased), trimmed of surrounding whitespace,
and is blank when none of those keys holds a non-blank value.
("Blank" is the empty string, the program's falsy string default.) -/
theorem c8_identifier_fallback (orders : List RawOrder) (zm : List (String × String)) :
    (normalize_orders orders zm).map NOrder.orderid =
      orders.map (fun r => pyStrip (specFirstNonEmptyId r)) := by
  unfold normalize_orders
  rw [List.map_map]
  apply List.map_congr_left
  intro r _
  exact normalizeOrder_orderid zm r

/-! ## Plan-engine development: inversion of one loop step -/

theorem planStep_inv (cs : List PCourier) (st : PlanState) (o : NOrder) (st' : PlanState)
    (hstep : planStep cs st o = .ok st') :
    ∃ w, effWeight o = some w ∧
      ((chainZ cs o = [] ∧ st' = markUnassigned st o.orderid "Zone not covered") ∨
       (chainZ cs o ≠ [] ∧ strLower o.paymenttype = "cod" ∧ chainC cs o = [] ∧
         st' = markUnassigned st o.orderid "COD not accepted") ∨
       (chainZ cs o ≠ [] ∧ ¬ (strLower o.paymenttype = "cod" ∧ chainC cs o = []) ∧
         chainE cs o = [] ∧
         st' = markUnassigned st o.orderid ("Excluded product type: " ++ o.producttype)) ∨
       (chainZ cs o ≠ [] ∧ ¬ (strLower o.paymenttype = "cod" ∧ chainC cs o = []) ∧
         chainE cs o ≠ [] ∧ chainK cs o st.usage w = [] ∧
         st' = markUnassigned st o.orderid "Capacity exceeded") ∨
       (∃ chosen, chainZ cs o ≠ [] ∧ ¬ (strLower o.paymenttype = "cod" ∧ chainC cs o = []) ∧
         chainE cs o ≠ [] ∧ chainK cs o st.usage w ≠ [] ∧
         chosenCourier st.usage (chainK cs o st.usage w) = some chosen ∧
         st' = recordAssign st o.orderid chosen w)) := by
  cases hw : effWeight o with
  | none =>
    rw [planStep, hw] at hstep
    exact absurd hstep (by simp)
  | some w =>
    rw [planStep, hw] at hstep
    simp only [] at hstep
    refine ⟨w, rfl, ?_⟩
    by_cases h1 : chainZ cs o = []
    · rw [if_pos h1] at hstep
      left
      exact ⟨h1, by injection hstep with h; exact h.symm⟩
    · rw [if_neg h1] at hstep
      by_cases h2 : strLower o.paymenttype = "cod" ∧ chainC cs o = []
      · rw [if_pos h2] at hstep
        right; left
        exact ⟨h1, h2.1, h2.2, by injection hstep with h; exact h.symm⟩
      · rw [if_neg h2] at hstep
        by_cases h3 : chainE cs o = []
        · rw [if_pos h3] at hstep
          right; right; left
          exact ⟨h1, h2, h3, by injection hstep with h; exact h.symm⟩
        · rw [if_neg h3] at hstep
          by_cases h4 : chainK cs o st.usage w = []
          · rw [if_pos h4] at hstep
            right; right; right; left
            exact ⟨h1, h2, h3, h4, by injection hstep with h; exact h.symm⟩
          · rw [if_neg h4] at hstep
            cases hch : chosenCourier st.usage (chainK cs o st.usage w) with
            | none =>
              rw [hch] at hstep
              exact absurd hstep (by simp)
            | some chosen =>
              rw [hch] at hstep
              right; right; right; right
              exact ⟨chosen, h1, h2, h3, h4, rfl,
                by injection hstep with h; exact h.symm⟩

/-! ## Plan-engine development: usage-dictionary lemmas -/

theorem usageInit_val_zero (cs : List PCourier) :
    ∀ p ∈ usageInit cs, p.2 = 0 := by
  have haux : ∀ (cs : List PCourier) (acc : Usage), (∀ p ∈ acc, p.2 = 0) →
      ∀ p ∈ cs.foldl (fun a c => upsertVal c.courierid 0 a) acc, p.2 = 0 := by
    intro cs
    induction cs with
    | nil => intro acc hacc p hp; exact hacc p hp
    | cons c rest ih =>
      intro acc hacc p hp
      rw [List.foldl_cons] at hp
      refine ih _ ?_ p hp
      intro q hq
      rcases mem_upsertVal _ _ _ q hq with hq | hq
      · rw [hq]
      · exact hacc q hq
  intro p hp
  exact haux cs [] (by simp) p hp

theorem qlookup_usageInit (cs : List PCourier) (k : String) :
    qlookup (usageInit cs) k = 0 := by
  unfold qlookup
  cases hf : (usageInit cs).find? (fun p => p.1 = k) with
  | none => rfl
  | some p =>
    have hp : p ∈ usageInit cs := List.mem_of_find?_eq_some hf
    simp [usageInit_val_zero cs p hp]

theorem usageAdd_of_not_mem (u : Usage) (k : String) (w : ℚ)
    (h : k ∉ u.map Prod.fst) : usageAdd u k w = u := by
  unfold usageAdd
  induction u with
  | nil => rfl
  | cons p rest ih =>
    simp only [List.map_cons, List.mem_cons] at h
    push_neg at h
    rw [List.map_cons, if_neg (fun hp => h.1 hp.symm), ih h.2]

theorem qlookup_usageAdd_ne (u : Usage) (k k' : String) (w : ℚ) (h : k' ≠ k) :
    qlookup (usageAdd u k w) k' = qlookup u k' := by
  unfold qlookup usageAdd
  induction u with
  | nil => rfl
  | cons p rest ih =>
    by_cases hp : p.1 = k
    · rw [List.map_cons, if_pos hp]
      rw [List.find?_cons, List.find?_cons]
      have : (decide (p.1 = k')) = false := by
        simp [hp, Ne.symm h]
      simp only [this]
      exact ih
    · rw [List.map_cons, if_neg hp]
      rw [List.find?_cons, List.find?_cons]
      cases hd : decide (p.1 = k') with
      | true => rfl
      | false => exact ih

theorem qlookup_usageAdd_self (u : Usage) (k : String) (w : ℚ)
    (h : k ∈ u.map Prod.fst) :
    qlookup (usageAdd u k w) k = qlookup u k + w := by
  unfold qlookup usageAdd
  induction u with
  | nil => simp at h
  | cons p rest ih =>
    by_cases hp : p.1 = k
    · rw [List.map_cons, if_pos hp]
      rw [List.find?_cons, List.find?_cons]
      have hd : (decide (p.1 = k)) = true := by simp [hp]
      simp only [hd]
      simp
    · rw [List.map_cons, if_neg hp]
      rw [List.find?_cons, List.find?_cons]
      have hd : (decide (p.1 = k)) = false := by simp [hp]
      simp only [hd]
      apply ih
      simp only [List.map_cons, List.mem_cons] at h
      rcases h with h | h
      · exact absurd h.symm hp
      · exact h

/-- Membership in the full filter chain implies membership in the
courier list it filters, together with the capacity bound. -/
theorem chainK_sub (cs : List PCourier) (o : NOrder) (u : Usage) (w : ℚ)
    (c : PCourier) (hc : c ∈ chainK cs o u w) :
    c ∈ cs ∧ qlookup u c.courierid + w ≤ effCapacity c := by
  unfold chainK capFilter at hc
  have h1 := List.mem_filter.mp hc
  have hcap : qlookup u c.courierid + w ≤ effCapacity c := by
    have := h1.2
    exact of_decide_eq_true this
  unfold chainE exclFilter at h1
  have h2 := List.mem_filter.mp h1.1
  unfold chainC codFilter at h2
  have h3 := List.mem_filter.mp h2.1
  unfold chainZ zoneFilter at h3
  have h4 := List.mem_filter.mp h3.1
  exact ⟨h4.1, hcap⟩

/-- The chosen courier is a member of the candidate set. -/
theorem chosenCourier_mem (u : Usage) (l : List PCourier) (c : PCourier)
    (h : chosenCourier u l = some c) : c ∈ l := by
  unfold chosenCourier at h
  cases hs : isort (selKeyLt u) l with
  | nil => rw [hs] at h; simp at h
  | cons x t =>
    rw [hs] at h
    simp only [List.head?_cons, Option.some.injEq] at h
    subst h
    rw [← mem_isort (selKeyLt u)]
    rw [hs]
    exact List.mem_cons_self _ _

/-- Generic invariant preservation along a planning run. -/
theorem planRun_preserves (P : PlanState → Prop) (cs : List PCourier)
    (hP : ∀ st o st', planStep cs st o = .ok st' → P st → P st') :
    ∀ (orders : List NOrder) (st st' : PlanState),
      P st → planRun cs st orders = .ok st' → P st' := by
  intro orders
  induction orders with
  | nil =>
    intro st st' hst hrun
    rw [planRun] at hrun
    injection hrun with h
    rw [← h]
    exact hst
  | cons o rest ih =>
    intro st st' hst hrun
    rw [planRun] at hrun
    cases hstep : planStep cs st o with
    | error e => rw [hstep] at hrun; exact absurd hrun (by simp)
    | ok st1 =>
      rw [hstep] at hrun
      exact ih st1 st' (hP st o st1 hstep hst) hrun

/-! ## C2: the capacity invariant -/

/-- One step preserves the per-courier capacity bound (distinct
courier identifiers, nonnegative effective capacities). -/
theorem planStep_capacity (couriers : List PCourier)
    (hnd : (couriers.map PCourier.courierid).Nodup)
    (st : PlanState) (o : NOrder) (st' : PlanState)
    (hstep : planStep (isort courierPrioLt couriers) st o = .ok st')
    (inv : ∀ c ∈ couriers, 0 ≤ effCapacity c → qlookup st.usage c.courierid ≤ effCapacity c) :
    ∀ c ∈ couriers, 0 ≤ effCapacity c → qlookup st'.usage c.courierid ≤ effCapacity c := by
  obtain ⟨w, hw, hbr⟩ := planStep_inv _ st o st' hstep
  rcases hbr with ⟨_, hst'⟩ | ⟨_, _, _, hst'⟩ | ⟨_, _, _, hst'⟩ | ⟨_, _, _, _, hst'⟩ |
    ⟨chosen, _, _, _, _, hch, hst'⟩
  · subst hst'; exact inv
  · subst hst'; exact inv
  · subst hst'; exact inv
  · subst hst'; exact inv
  · subst hst'
    intro c hc hcap
    show qlookup (usageAdd st.usage chosen.courierid w) c.courierid ≤ effCapacity c
    have hchosen := chainK_sub _ o st.usage w chosen (chosenCourier_mem _ _ _ hch)
    have hchosen_mem : chosen ∈ couriers := (mem_isort courierPrioLt chosen couriers).mp hchosen.1
    by_cases hid : c.courierid = chosen.courierid
    · have hceq : c = chosen := by
        have hinj := List.inj_on_of_nodup_map hnd
        exact hinj hc hchosen_mem hid
      subst hceq
      by_cases hmem : c.courierid ∈ st.usage.map Prod.fst
      · rw [qlookup_usageAdd_self st.usage c.courierid w hmem]
        exact hchosen.2
      · rw [usageAdd_of_not_mem st.usage c.courierid w hmem]
        exact inv c hc hcap
    · rw [qlookup_usageAdd_ne st.usage chosen.courierid c.courierid w hid]
      exact inv c hc hcap

def cexC2courier : PCourier := ⟨"c1", [], false, some (-1), none, []⟩

/-- Counterexample to C2 as stated: a courier may declare a negative
daily capacity; with no orders at all its final recorded usage is `0`,
which exceeds the declared capacity `-1`. -/
theorem c2_counterexample :
    plan_assignments [] [cexC2courier] = .ok ⟨[], [], [("c1", 0)], []⟩ ∧
    cexC2courier ∈ [cexC2courier] ∧
    effCapacity cexC2courier = -1 ∧
    ¬ (qlookup [("c1", 0)] "c1" ≤ effCapacity cexC2courier) := by
  refine ⟨by with_unfolding_all rfl, List.mem_cons_self _ _, by with_unfolding_all rfl, ?_⟩
  intro h
  rw [show qlookup [("c1", 0)] "c1" = 0 from by with_unfolding_all rfl,
      show effCapacity cexC2courier = -1 from by with_unfolding_all rfl] at h
  exact absurd h (by norm_num)

/-- C2 (amended): for every roster with pairwise-distinct courier
identifiers, after a successful `plan_assignments` run every courier
whose effective daily capacity (`float(dailycapacity or 0)`) is
nonnegative has final cumulative usage at most that capacity. -/
theorem c2_capacity_invariant (orders : List NOrder) (couriers : List PCourier)
    (hnd : (couriers.map PCourier.courierid).Nodup)
    (out : PlanState) (hok : plan_assignments orders couriers = .ok out) :
    ∀ c ∈ couriers, 0 ≤ effCapacity c → qlookup out.usage c.courierid ≤ effCapacity c := by
  have h0 : ∀ c ∈ couriers, 0 ≤ effCapacity c →
      qlookup (planInit couriers).usage c.courierid ≤ effCapacity c := by
    intro c _ hcap
    rw [show (planInit couriers).usage = usageInit couriers from rfl]
    rw [qlookup_usageInit]
    exact hcap
  exact planRun_preserves
    (fun st => ∀ c ∈ couriers, 0 ≤ effCapacity c → qlookup st.usage c.courierid ≤ effCapacity c)
    (isort courierPrioLt couriers)
    (fun st o st' hstep hinv => planStep_capacity couriers hnd st o st' hstep hinv)
    orders (planInit couriers) out h0 hok

/-- Concrete instance of C2 (amended): the capacity test scenario —
one courier of capacity `10`, orders of weight `7` then `5`; the final
usage `7` is within capacity. -/
theorem c2_witness :
    ((([⟨"C1", ["Giza"], true, some 10, some 1, []⟩] :
        List PCourier).map PCourier.courierid).Nodup ∧
      plan_assignments
        [⟨"A", "Giza", "COD", "standard", .num 7, "", ""⟩,
         ⟨"B", "Giza", "COD", "standard", .num 5, "", ""⟩]
        [⟨"C1", ["Giza"], true, some 10, some 1, []⟩] =
        .ok ⟨[("A", "C1")], ["B"], [("C1", 7)], [("B", "Capacity exceeded")]⟩) ∧
    qlookup (PlanState.usage ⟨[("A", "C1")], ["B"], [("C1", 7)], [("B", "Capacity exceeded")]⟩)
        (PCourier.courierid ⟨"C1", ["Giza"], true, some 10, some 1, []⟩) ≤
      effCapacity ⟨"C1", ["Giza"], true, some 10, some 1, []⟩ :=
  ⟨⟨by with_unfolding_all decide, by with_unfolding_all rfl⟩,
    c2_capacity_invariant
      [⟨"A", "Giza", "COD", "standard", .num 7, "", ""⟩,
       ⟨"B", "Giza", "COD", "standard", .num 5, "", ""⟩]
      [⟨"C1", ["Giza"], true, some 10, some 1, []⟩]
      (by with_unfolding_all decide)
      ⟨[("A", "C1")], ["B"], [("C1", 7)], [("B", "Capacity exceeded")]⟩
      (by with_unfolding_all rfl)
      ⟨"C1", ["Giza"], true, some 10, some 1, []⟩
      (List.mem_cons_self _ _)
      (by with_unfolding_all decide)⟩

/-! ## C7: usage initialization and monotonicity -/

theorem planRun_append (cs : List PCourier) (l1 l2 : List NOrder) :
    ∀ st : PlanState, planRun cs st (l1 ++ l2) =
      match planRun cs st l1 with
      | .error e => .error e
      | .ok st1 => planRun cs st1 l2 := by
  induction l1 with
  | nil => intro st; rfl
  | cons o rest ih =>
    intro st
    rw [List.cons_append, planRun, planRun]
    cases hstep : planStep cs st o with
    | error e => rfl
    | ok st1 => exact ih st1

theorem planRun_single (cs : List PCourier) (st st' : PlanState) (o : NOrder)
    (h : planRun cs st [o] = .ok st') : planStep cs st o = .ok st' := by
  rw [planRun] at h
  cases hstep : planStep cs st o with
  | error e => rw [hstep] at h; exact absurd h (by simp)
  | ok st1 => rw [hstep] at h; exact h

/-- One successful step never decreases any courier's recorded usage,
provided the order's effective weight is nonnegative. -/
theorem planStep_usage_mono (cs : List PCourier) (st : PlanState) (o : NOrder)
    (st' : PlanState) (hstep : planStep cs st o = .ok st')
    (hw : ∀ q, effWeight o = some q → 0 ≤ q) :
    ∀ k, qlookup st.usage k ≤ qlookup st'.usage k := by
  obtain ⟨w, hweq, hbr⟩ := planStep_inv cs st o st' hstep
  have hw0 : 0 ≤ w := hw w hweq
  rcases hbr with ⟨_, hst'⟩ | ⟨_, _, _, hst'⟩ | ⟨_, _, _, hst'⟩ | ⟨_, _, _, _, hst'⟩ |
    ⟨chosen, _, _, _, _, _, hst'⟩
  · subst hst'; intro k; exact le_refl _
  · subst hst'; intro k; exact le_refl _
  · subst hst'; intro k; exact le_refl _
  · subst hst'; intro k; exact le_refl _
  · subst hst'
    intro k
    show qlookup st.usage k ≤ qlookup (usageAdd st.usage chosen.courierid w) k
    by_cases hk : k = chosen.courierid
    · rw [hk]
      by_cases hmem : chosen.courierid ∈ st.usage.map Prod.fst
      · rw [qlookup_usageAdd_self st.usage chosen.courierid w hmem]
        linarith
      · rw [usageAdd_of_not_mem st.usage chosen.courierid w hmem]
    · rw [qlookup_usageAdd_ne st.usage chosen.courierid k w hk]

def cexC7courier : PCourier := ⟨"c1", ["Z"], false, some 10, none, []⟩

def cexC7order : NOrder := ⟨"A", "Z", "", "", .num (-5), "", ""⟩

/-- Counterexample to C7 as stated: an order of weight `-5` passes the
capacity filter, is assigned, and its weight is added, so the chosen
courier's cumulative usage decreases from `0` to `-5` in one step. -/
theorem c7_counterexample :
    planPrefix [cexC7order] [cexC7courier] 0 = .ok (planInit [cexC7courier]) ∧
    qlookup (planInit [cexC7courier]).usage "c1" = 0 ∧
    planPrefix [cexC7order] [cexC7courier] 1 = .ok ⟨[("A", "c1")], [], [("c1", -5)], []⟩ ∧
    qlookup (PlanState.usage ⟨[("A", "c1")], [], [("c1", -5)], []⟩) "c1" <
      qlookup (planInit [cexC7courier]).usage "c1" := by
  refine ⟨by with_unfolding_all rfl, by with_unfolding_all rfl,
          by with_unfolding_all rfl, ?_⟩
  rw [show qlookup (PlanState.usage ⟨[("A", "c1")], [], [("c1", -5)], []⟩) "c1" = -5 from
        by with_unfolding_all rfl,
      show qlookup (planInit [cexC7courier]).usage "c1" = 0 from by with_unfolding_all rfl]
  norm_num

/-- C7 (amended): within a planning run the capacity-usage mapping is
initialized to zero for every courier, and — provided every order's
effective weight is nonnegative — it is monotone: in a successful run
no courier's usage decreases from the state after `n` orders to the
state after `n + 1` orders. -/
theorem c7_usage_monotone (orders : List NOrder) (couriers : List PCourier)
    (n : ℕ) (st st' : PlanState) (k : String)
    (hw : ∀ o ∈ orders, ∀ q, effWeight o = some q → 0 ≤ q)
    (h1 : planPrefix orders couriers n = .ok st)
    (h2 : planPrefix orders couriers (n + 1) = .ok st') :
    qlookup (planInit couriers).usage k = 0 ∧
    qlookup st.usage k ≤ qlookup st'.usage k := by
  refine ⟨qlookup_usageInit couriers k, ?_⟩
  by_cases hn : n < orders.length
  · have htake : orders.take (n + 1) = orders.take n ++ [orders[n]] := by
      rw [List.take_succ]
      rw [List.getElem?_eq_getElem hn]
      rfl
    rw [planPrefix, htake, planRun_append] at h2
    rw [planPrefix] at h1
    rw [h1] at h2
    have hstep := planRun_single _ _ _ _ h2
    exact planStep_usage_mono _ st _ st' hstep
      (fun q hq => hw orders[n] (List.getElem_mem hn) q hq) k
  · have htake : orders.take (n + 1) = orders.take n := by
      push_neg at hn
      rw [List.take_of_length_le hn, List.take_of_length_le (by omega)]
    rw [planPrefix, htake] at h2
    rw [planPrefix] at h1
    rw [h1] at h2
    injection h2 with h
    rw [h]

/-- Concrete instance of C7 (amended): one courier, one order of
weight `5`; usage starts at `0` and does not decrease in the step. -/
theorem c7_witness :
    qlookup (planInit [⟨"C1", ["Giza"], true, some 10, some 1, []⟩]).usage "C1" = 0 ∧
    qlookup (PlanState.usage (planInit [⟨"C1", ["Giza"], true, some 10, some 1, []⟩])) "C1" ≤
      qlookup (PlanState.usage ⟨[("A", "C1")], [], [("C1", 5)], []⟩) "C1" :=
  c7_usage_monotone
    [⟨"A", "Giza", "COD", "standard", .num 5, "", ""⟩]
    [⟨"C1", ["Giza"], true, some 10, some 1, []⟩]
    0 (planInit [⟨"C1", ["Giza"], true, some 10, some 1, []⟩])
    ⟨[("A", "C1")], [], [("C1", 5)], []⟩ "C1"
    (by
      intro o ho q hq
      rw [List.mem_singleton] at ho
      subst ho
      rw [show effWeight ⟨"A", "Giza", "COD", "standard", .num 5, "", ""⟩ = some 5 from
            by with_unfolding_all rfl] at hq
      injection hq with h
      rw [← h]
      norm_num)
    (by with_unfolding_all rfl)
    (by with_unfolding_all rfl)

/-! ## C3: the first failing filter determines the reason -/

theorem codFilter_of_ne (payment : String) (l : List PCourier) (h : payment ≠ "cod") :
    codFilter payment l = l := by
  unfold codFilter
  rw [List.filter_eq_self]
  intro c _
  exact decide_eq_true (Or.inl h)

theorem chainC_nil_of_chainZ (cs : List PCourier) (o : NOrder) (h : chainZ cs o = []) :
    chainC cs o = [] := by
  unfold chainC
  rw [h]
  rfl

theorem chainE_nil_of_chainC (cs : List PCourier) (o : NOrder) (h : chainC cs o = []) :
    chainE cs o = [] := by
  unfold chainE
  rw [h]
  rfl

theorem chainK_nil_of_chainE (cs : List PCourier) (o : NOrder) (u : Usage) (w : ℚ)
    (h : chainE cs o = []) : chainK cs o u w = [] := by
  unfold chainK
  rw [h]
  rfl

/-- The specification's description of the recorded rejection reason:
the reason of the first predicate in the ordered chain (zone coverage,
COD acceptance, product exclusion, capacity) whose candidate set is
empty. -/
def specFirstEmptyReason (cs : List PCourier) (o : NOrder) (u : Usage) (w : ℚ) : String :=
  if chainZ cs o = [] then "Zone not covered"
  else if chainC cs o = [] then "COD not accepted"
  else if chainE cs o = [] then "Excluded product type: " ++ o.producttype
  else if chainK cs o u w = [] then "Capacity exceeded"
  else ""

/-- C3: in a `plan_assignments` run, an order is left unassigned at
its processing step exactly when the fourth candidate set is empty,
and then the recorded reason is the one of the first predicate in the
ordered chain that produced an empty candidate set (with the exact
reason strings); when some courier survives all four filters nothing
is recorded.  The chain is evaluated with early exit, which the
program's step function realizes by returning at the first empty
set. -/
theorem c3_first_failing_reason (orders : List NOrder) (couriers : List PCourier)
    (n : ℕ) (st st' : PlanState) (o : NOrder) (w : ℚ)
    (hpre : planPrefix orders couriers n = .ok st)
    (ho : orders[n]? = some o)
    (hw : effWeight o = some w)
    (hstep : planStep (isort courierPrioLt couriers) st o = .ok st') :
    (chainK (isort courierPrioLt couriers) o st.usage w = [] →
       st'.unassigned = st.unassigned ++ [o.orderid] ∧
       st'.reasons = upsertVal o.orderid
         (specFirstEmptyReason (isort courierPrioLt couriers) o st.usage w) st.reasons ∧
       st'.assignments = st.assignments) ∧
    (chainK (isort courierPrioLt couriers) o st.usage w ≠ [] →
       st'.unassigned = st.unassigned ∧ st'.reasons = st.reasons) := by
  obtain ⟨w', hw', hbr⟩ := planStep_inv _ st o st' hstep
  rw [hw] at hw'
  injection hw' with hww
  subst hww
  rcases hbr with ⟨h1, hst'⟩ | ⟨h1, h2a, h2b, hst'⟩ | ⟨h1, h2, h3, hst'⟩ |
    ⟨h1, h2, h3, h4, hst'⟩ | ⟨chosen, h1, h2, h3, h4, hch, hst'⟩
  · subst hst'
    have hC := chainC_nil_of_chainZ _ o h1
    have hE := chainE_nil_of_chainC _ o hC
    have hK := chainK_nil_of_chainE _ o st.usage w hE
    constructor
    · intro _
      refine ⟨rfl, ?_, rfl⟩
      rw [specFirstEmptyReason, if_pos h1]
      rfl
    · intro hKne
      exact absurd hK hKne
  · subst hst'
    have hE := chainE_nil_of_chainC _ o h2b
    have hK := chainK_nil_of_chainE _ o st.usage w hE
    constructor
    · intro _
      refine ⟨rfl, ?_, rfl⟩
      rw [specFirstEmptyReason, if_neg h1, if_pos h2b]
      rfl
    · intro hKne
      exact absurd hK hKne
  · subst hst'
    have hCne : chainC (isort courierPrioLt couriers) o ≠ [] := by
      intro hC
      rcases Decidable.em (strLower o.paymenttype = "cod") with hp | hp
      · exact h2 ⟨hp, hC⟩
      · rw [show chainC (isort courierPrioLt couriers) o =
              codFilter (strLower o.paymenttype) (chainZ (isort courierPrioLt couriers) o)
            from rfl, codFilter_of_ne _ _ hp] at hC
        exact h1 hC
    have hK := chainK_nil_of_chainE _ o st.usage w h3
    constructor
    · intro _
      refine ⟨rfl, ?_, rfl⟩
      rw [specFirstEmptyReason, if_neg h1, if_neg hCne, if_pos h3]
      rfl
    · intro hKne
      exact absurd hK hKne
  · subst hst'
    have hCne : chainC (isort courierPrioLt couriers) o ≠ [] := by
      intro hC
      exact h3 (chainE_nil_of_chainC _ o hC)
    constructor
    · intro _
      refine ⟨rfl, ?_, rfl⟩
      rw [specFirstEmptyReason, if_neg h1, if_neg hCne, if_neg h3, if_pos h4]
      rfl
    · intro hKne
      exact absurd h4 hKne
  · subst hst'
    constructor
    · intro hK
      exact absurd hK h4
    · intro _
      exact ⟨rfl, rfl⟩

def cW3 : PCourier := ⟨"C1", ["Giza"], true, some 10, some 1, ["fragile"]⟩

def oW3 : NOrder := ⟨"A", "Alex", "COD", "standard", .num 1, "", ""⟩

/-- Concrete instance of C3: courier covering only Giza, order for
Alex; the first (zone) filter empties, and exactly `"Zone not
covered"` is recorded. -/
theorem c3_witness :
    PlanState.unassigned ⟨[], ["A"], [("C1", 0)], [("A", "Zone not covered")]⟩ =
        (planInit [cW3]).unassigned ++ [oW3.orderid] ∧
    PlanState.reasons ⟨[], ["A"], [("C1", 0)], [("A", "Zone not covered")]⟩ =
        upsertVal oW3.orderid
          (specFirstEmptyReason (isort courierPrioLt [cW3]) oW3 (planInit [cW3]).usage 1)
          (planInit [cW3]).reasons ∧
    PlanState.assignments ⟨[], ["A"], [("C1", 0)], [("A", "Zone not covered")]⟩ =
        (planInit [cW3]).assignments :=
  (c3_first_failing_reason [oW3] [cW3] 0 (planInit [cW3])
      ⟨[], ["A"], [("C1", 0)], [("A", "Zone not covered")]⟩ oW3 1
      (by with_unfolding_all rfl) (by with_unfolding_all rfl)
      (by with_unfolding_all rfl) (by with_unfolding_all rfl)).1
    (by with_unfolding_all rfl)

/-! ## C4: selection among survivors -/

/-- Lexicographic "at most" on the selection key: smaller current
usage first, ties broken by smaller effective priority. -/
def selKeyLe (u : Usage) (a b : PCourier) : Prop :=
  qlookup u a.courierid < qlookup u b.courierid ∨
    (qlookup u a.courierid = qlookup u b.courierid ∧ effPriority a ≤ effPriority b)

theorem selKeyLt_iff (u : Usage) (a b : PCourier) : selKeyLt u a b = true ↔
    (qlookup u a.courierid < qlookup u b.courierid ∨
     (qlookup u a.courierid = qlookup u b.courierid ∧ effPriority a < effPriority b)) := by
  unfold selKeyLt
  exact decide_eq_true_iff

theorem selKeyLt_asymm (u : Usage) (a b : PCourier) (h : selKeyLt u a b = true) :
    selKeyLt u b a = false := by
  rw [selKeyLt_iff] at h
  rw [Bool.eq_false_iff]
  intro hba
  rw [selKeyLt_iff] at hba
  rcases h with h | ⟨he, hp⟩ <;> rcases hba with hba | ⟨hbe, hbp⟩
  · exact absurd hba (by linarith)
  · exact absurd hbe (by linarith)
  · exact absurd hba (by linarith)
  · exact absurd hbp (by omega)

theorem selKeyLt_cross (u : Usage) (x y z : PCourier)
    (hzx : selKeyLt u z x = true) (hzy : selKeyLt u z y = false) :
    selKeyLt u y x = true := by
  rw [selKeyLt_iff] at hzx ⊢
  have hzy' : ¬ (qlookup u z.courierid < qlookup u y.courierid ∨
      (qlookup u z.courierid = qlookup u y.courierid ∧ effPriority z < effPriority y)) := by
    rw [← selKeyLt_iff]
    rw [hzy]
    simp
  push_neg at hzy'
  rcases hzx with h | ⟨he, hp⟩
  · left
    have := hzy'.1
    linarith
  · have h1 : qlookup u y.courierid ≤ qlookup u z.courierid := by
      have := hzy'.1
      linarith
    rcases lt_or_eq_of_le h1 with h2 | h2
    · left
      linarith [he.symm.le]
    · right
      refine ⟨by linarith, ?_⟩
      have := hzy'.2 h2.symm
      omega

theorem selKeyLt_irrefl (u : Usage) (a : PCourier) : selKeyLt u a a = false := by
  rw [Bool.eq_false_iff]
  intro h
  rw [selKeyLt_iff] at h
  rcases h with h | ⟨_, h⟩
  · exact absurd h (lt_irrefl _)
  · exact absurd h (lt_irrefl _)

theorem selKeyLe_of_not_lt (u : Usage) (a b : PCourier)
    (h : selKeyLt u a b = false) : selKeyLe u b a := by
  have h' : ¬ (qlookup u a.courierid < qlookup u b.courierid ∨
      (qlookup u a.courierid = qlookup u b.courierid ∧ effPriority a < effPriority b)) := by
    rw [← selKeyLt_iff, h]
    simp
  push_neg at h'
  unfold selKeyLe
  rcases lt_trichotomy (qlookup u b.courierid) (qlookup u a.courierid) with ht | ht | ht
  · exact Or.inl ht
  · right
    refine ⟨ht, ?_⟩
    have := h'.2 ht.symm
    omega
  · exact absurd ht (not_lt.mpr h'.1)

/-- The chosen courier (`sorted(cap_ok, key=...)[0]`) belongs to the
survivor set and has a lexicographically minimal selection key. -/
theorem chosenCourier_min (u : Usage) (l : List PCourier) (ch : PCourier)
    (h : chosenCourier u l = some ch) :
    ch ∈ l ∧ ∀ c ∈ l, selKeyLe u ch c := by
  refine ⟨chosenCourier_mem u l ch h, ?_⟩
  intro c hc
  unfold chosenCourier at h
  cases hs : isort (selKeyLt u) l with
  | nil => rw [hs] at h; simp at h
  | cons x t =>
    rw [hs] at h
    simp only [List.head?_cons, Option.some.injEq] at h
    rw [h] at hs
    have hmin := isort_head_min (selKeyLt u) (selKeyLt_asymm u)
      (fun x y z => selKeyLt_cross u x y z) (selKeyLt_irrefl u) l ch t hs c hc
    exact selKeyLe_of_not_lt u c ch hmin

/-- C4 (amended): when at least one courier survives all four
filters, the step assigns the order to the surviving courier chosen by
`sorted(cap_ok, key=(usage, priority))[0]` and immediately adds the
order's weight to that courier's usage; the chosen courier is a
survivor whose (usage, effective priority) key — with priority
defaulting to the sentinel `10 ^ 9` when not declared — is
lexicographically minimal among all survivors. -/
theorem c4_selection (orders : List NOrder) (couriers : List PCourier)
    (n : ℕ) (st : PlanState) (o : NOrder) (w : ℚ) (ch : PCourier)
    (hpre : planPrefix orders couriers n = .ok st)
    (ho : orders[n]? = some o)
    (hw : effWeight o = some w)
    (hK : chainK (isort courierPrioLt couriers) o st.usage w ≠ [])
    (hch : chosenCourier st.usage (chainK (isort courierPrioLt couriers) o st.usage w) =
      some ch) :
    planStep (isort courierPrioLt couriers) st o = .ok (recordAssign st o.orderid ch w) ∧
    ch ∈ chainK (isort courierPrioLt couriers) o st.usage w ∧
    ∀ c ∈ chainK (isort courierPrioLt couriers) o st.usage w, selKeyLe st.usage ch c := by
  have hE : chainE (isort courierPrioLt couriers) o ≠ [] := by
    intro h
    exact hK (chainK_nil_of_chainE _ o st.usage w h)
  have hC : chainC (isort courierPrioLt couriers) o ≠ [] := by
    intro h
    exact hE (chainE_nil_of_chainC _ o h)
  have hZ : chainZ (isort courierPrioLt couriers) o ≠ [] := by
    intro h
    exact hC (chainC_nil_of_chainZ _ o h)
  have hcod : ¬ (strLower o.paymenttype = "cod" ∧
      chainC (isort courierPrioLt couriers) o = []) := by
    intro h
    exact hC h.2
  refine ⟨?_, chosenCourier_min st.usage _ ch hch⟩
  rw [planStep, hw]
  simp only []
  rw [if_neg hZ, if_neg hcod, if_neg hE, if_neg hK, hch]

def cexC4noprio : PCourier := ⟨"noprio", ["Z"], false, some 10, none, []⟩

def cexC4hasprio : PCourier := ⟨"hasprio", ["Z"], false, some 10, some 2000000000, []⟩

def cexC4order : NOrder := ⟨"A", "Z", "", "", .num 1, "", ""⟩

/-- Counterexample to C4 as stated: two couriers surviving all
filters with tied (zero) usage, one declaring priority `2000000000`
and one declaring none.  The missing priority is replaced by the
sentinel `10 ^ 9`, which is *smaller*, so the courier without a
declared priority wins the tie-break — it does not rank last. -/
theorem c4_counterexample :
    plan_assignments [cexC4order] [cexC4noprio, cexC4hasprio] =
      .ok ⟨[("A", "noprio")], [], [("noprio", 1), ("hasprio", 0)], []⟩ ∧
    cexC4noprio.priority = none ∧
    cexC4hasprio.priority = some 2000000000 ∧
    cexC4hasprio ∈ chainK (isort courierPrioLt [cexC4noprio, cexC4hasprio]) cexC4order
        (planInit [cexC4noprio, cexC4hasprio]).usage 1 ∧
    qlookup (planInit [cexC4noprio, cexC4hasprio]).usage "noprio" =
      qlookup (planInit [cexC4noprio, cexC4hasprio]).usage "hasprio" := by
  refine ⟨by with_unfolding_all rfl, rfl, rfl, ?_, by with_unfolding_all rfl⟩
  rw [show chainK (isort courierPrioLt [cexC4noprio, cexC4hasprio]) cexC4order
        (planInit [cexC4noprio, cexC4hasprio]).usage 1 = [cexC4noprio, cexC4hasprio] from
      by with_unfolding_all rfl]
  exact List.mem_cons_of_mem _ (List.mem_cons_self _ _)

def cW4a : PCourier := ⟨"C1", ["Giza"], true, some 10, some 1, []⟩

def cW4b : PCourier := ⟨"C2", ["Giza"], true, some 10, some 2, []⟩

def oW4 : NOrder := ⟨"B", "Giza", "COD", "standard", .num 1, "", ""⟩

/-- Concrete instance of C4 (amended): two surviving couriers with
tied usage; the priority-1 courier is chosen and its usage is bumped
immediately. -/
theorem c4_witness :
    planStep (isort courierPrioLt [cW4a, cW4b]) (planInit [cW4a, cW4b]) oW4 =
      .ok (recordAssign (planInit [cW4a, cW4b]) oW4.orderid cW4a 1) ∧
    cW4a ∈ chainK (isort courierPrioLt [cW4a, cW4b]) oW4 (planInit [cW4a, cW4b]).usage 1 :=
  (fun h => ⟨h.1, h.2.1⟩)
    (c4_selection [oW4] [cW4a, cW4b] 0 (planInit [cW4a, cW4b]) oW4 1 cW4a
      (by with_unfolding_all rfl) (by with_unfolding_all rfl)
      (by with_unfolding_all rfl)
      (by with_unfolding_all decide)
      (by with_unfolding_all rfl))

/-! ## C6: the misassigned category -/

/-- The misassigned contribution of a single scan row: the normalized
identifier, when it is non-blank, a planned courier is found for it,
and that planned courier is non-blank and differs from the row's
courier identifier. -/
def rowMis (planned : List (String × String)) (row : ScanRow) : List String :=
  let oid := scanNorm (row.orderid.getD "")
  if oid = "" then []
  else
    match alookup planned oid with
    | some p => if p ≠ "" ∧ p ≠ pyStrip (row.courierid.getD "") then [oid] else []
    | none => []

theorem recStep_misassigned (ids : List String) (planned : List (String × String))
    (orders_l : List NOrder) (st : RecState) (row : ScanRow) :
    (recStep ids planned orders_l st row).misassigned =
      st.misassigned ++ rowMis planned row := by
  unfold recStep rowMis
  by_cases h : scanNorm (row.orderid.getD "") = ""
  · rw [if_pos h, if_pos h]
    simp
  · rw [if_neg h, if_neg h]

theorem foldl_recStep_mis (ids : List String) (planned : List (String × String))
    (orders_l : List NOrder) (rows : List ScanRow) :
    ∀ st : RecState,
      (rows.foldl (recStep ids planned orders_l) st).misassigned =
        st.misassigned ++ rows.bind (rowMis planned) := by
  induction rows with
  | nil => intro st; simp
  | cons r rest ih =>
    intro st
    rw [List.foldl_cons, ih, recStep_misassigned]
    simp

theorem mem_rowMis (planned : List (String × String)) (row : ScanRow) (id : String) :
    id ∈ rowMis planned row ↔
      (scanNorm (row.orderid.getD "") = id ∧ id ≠ "" ∧
        ∃ p, alookup planned id = some p ∧ p ≠ "" ∧ p ≠ pyStrip (row.courierid.getD "")) := by
  unfold rowMis
  by_cases h : scanNorm (row.orderid.getD "") = ""
  · rw [if_pos h]
    simp only [List.not_mem_nil, false_iff]
    intro hc
    rw [h] at hc
    exact hc.2.1 hc.1.symm
  · rw [if_neg h]
    cases hl : alookup planned (scanNorm (row.orderid.getD "")) with
    | none =>
      simp only [List.not_mem_nil, false_iff]
      intro hc
      rw [hc.1] at hl
      obtain ⟨p, hp, _, _⟩ := hc.2.2
      rw [hl] at hp
      exact absurd hp (by simp)
    | some p =>
      simp only []
      by_cases hcond : p ≠ "" ∧ p ≠ pyStrip (row.courierid.getD "")
      · rw [if_pos hcond]
        simp only [List.mem_singleton]
        constructor
        · intro hid
          subst hid
          exact ⟨rfl, h, p, hl, hcond.1, hcond.2⟩
        · intro hc
          exact hc.1.symm
      · rw [if_neg hcond]
        simp only [List.not_mem_nil, false_iff]
        intro hc
        obtain ⟨q, hq, hq1, hq2⟩ := hc.2.2
        rw [hc.1] at hl
        rw [hl] at hq
        injection hq with hpq
        subst hpq
        exact hcond ⟨hq1, hq2⟩

def cexC6row : ScanRow := ⟨some "A1", some "X", none⟩

/-- Counterexample to C6 as stated: an assignment may pair an order
with a blank courier identifier.  A scan of that order by courier
`"X"` then has a planned assignment whose courier differs by string
inequality, yet the blank planned identifier is falsy, so the row is
not added to `misassigned`. -/
theorem c6_counterexample :
    (reconcile [("A1", "")] [] [cexC6row] []).misassigned = [] ∧
    scanNorm "A1" = "A1" ∧
    alookup (assignMap [("A1", "")]) "A1" = some "" ∧
    ("" : String) ≠ pyStrip "X" := by
  refine ⟨by with_unfolding_all rfl, by with_unfolding_all rfl,
    by with_unfolding_all rfl, by decide⟩

/-- C6 (amended): a scan-row identifier lands in the `misassigned`
output exactly when it is non-blank after normalization and some scan
row carries it with a planned assignment whose courier identifier is
non-blank and differs (string inequality) from the row's courier
identifier; the planned-courier comparison is reached only through
the successful (truthy) lookup of a plan. -/
theorem c6_misassigned_iff (assignments : List (String × String))
    (orders_l : List NOrder) (log_rows : List ScanRow) (couriers : List PCourier)
    (id : String) :
    id ∈ (reconcile assignments orders_l log_rows couriers).misassigned ↔
      ∃ row ∈ log_rows, scanNorm (row.orderid.getD "") = id ∧ id ≠ "" ∧
        ∃ p, alookup (assignMap assignments) id = some p ∧ p ≠ "" ∧
          p ≠ pyStrip (row.courierid.getD "") := by
  unfold reconcile
  simp only []
  rw [mem_isort]
  rw [List.mem_dedup]
  unfold recFinal
  rw [foldl_recStep_mis]
  simp only [List.nil_append]
  rw [List.mem_bind]
  constructor
  · rintro ⟨row, hrow, hmem⟩
    exact ⟨row, hrow, (mem_rowMis _ row id).mp hmem⟩
  · rintro ⟨row, hrow, hc⟩
    exact ⟨row, hrow, (mem_rowMis _ row id).mpr hc⟩

/-! ## C5: reconciliation completeness for notDelivered -/

/-- The specification's "identifiers appearing in any scan row": each
row's order identifier after scan normalization. -/
def scanIds (log_rows : List ScanRow) : List String :=
  log_rows.map (fun r => scanNorm (r.orderid.getD ""))

theorem recStep_delivered (ids : List String) (planned : List (String × String))
    (orders_l : List NOrder) (st : RecState) (row : ScanRow) (id : String) :
    id ∈ (recStep ids planned orders_l st row).delivered ↔
      id ∈ st.delivered ∨ (scanNorm (row.orderid.getD "") = id ∧ id ≠ "") := by
  unfold recStep
  by_cases h : scanNorm (row.orderid.getD "") = ""
  · rw [if_pos h]
    constructor
    · exact Or.inl
    · rintro (hm | ⟨he, hne⟩)
      · exact hm
      · rw [h] at he
        exact absurd he.symm hne
  · rw [if_neg h]
    simp only []
    by_cases hd : scanNorm (row.orderid.getD "") ∈ st.delivered
    · rw [if_pos hd]
      constructor
      · exact Or.inl
      · rintro (hm | ⟨he, _⟩)
        · exact hm
        · rw [← he]
          exact hd
    · rw [if_neg hd]
      rw [List.mem_append, List.mem_singleton]
      constructor
      · rintro (hm | he)
        · exact Or.inl hm
        · right
          refine ⟨he.symm, ?_⟩
          rw [← he] at h
          exact h
      · rintro (hm | ⟨he, _⟩)
        · exact Or.inl hm
        · right
          exact he.symm

theorem foldl_recStep_delivered (ids : List String) (planned : List (String × String))
    (orders_l : List NOrder) (rows : List ScanRow) :
    ∀ (st : RecState) (id : String),
      id ∈ (rows.foldl (recStep ids planned orders_l) st).delivered ↔
        id ∈ st.delivered ∨ (id ∈ scanIds rows ∧ id ≠ "") := by
  induction rows with
  | nil =>
    intro st id
    simp [scanIds]
  | cons r rest ih =>
    intro st id
    rw [List.foldl_cons, ih, recStep_delivered]
    unfold scanIds
    rw [List.map_cons, List.mem_cons]
    unfold scanIds at *
    constructor
    · rintro ((hm | ⟨he, hne⟩) | ⟨hm, hne⟩)
      · exact Or.inl hm
      · exact Or.inr ⟨Or.inl he.symm, hne⟩
      · exact Or.inr ⟨Or.inr hm, hne⟩
    · rintro (hm | ⟨(he | hm), hne⟩)
      · exact Or.inl (Or.inl hm)
      · exact Or.inl (Or.inr ⟨he.symm, hne⟩)
      · exact Or.inr ⟨hm, hne⟩

theorem mem_knownIds_ne_blank (orders_l : List NOrder) (id : String)
    (h : id ∈ knownIds orders_l) : id ≠ "" := by
  unfold knownIds at h
  rw [List.mem_dedup] at h
  have := List.mem_filter.mp h
  exact of_decide_eq_true this.2

theorem strLtB_asymm (a b : String) (h : strLtB a b = true) : strLtB b a = false := by
  rw [strLtB, decide_eq_true_iff] at h
  rw [strLtB, decide_eq_false_iff_not]
  exact lt_asymm h

theorem strLtB_cross (x y z : String) (hzx : strLtB z x = true) (hzy : strLtB z y = false) :
    strLtB y x = true := by
  rw [strLtB, decide_eq_true_iff] at hzx ⊢
  rw [strLtB, decide_eq_false_iff_not] at hzy
  exact lt_of_le_of_lt (le_of_not_lt hzy) hzx

theorem mem_recon_notDelivered (assignments : List (String × String))
    (orders_l : List NOrder) (log_rows : List ScanRow) (couriers : List PCourier)
    (id : String) :
    id ∈ (reconcile assignments orders_l log_rows couriers).notDelivered ↔
      (id ∈ knownIds orders_l ∧ id ∉ scanIds log_rows) := by
  unfold reconcile
  simp only []
  rw [mem_isort, List.mem_filter]
  unfold recFinal
  constructor
  · rintro ⟨hk, hnd⟩
    refine ⟨hk, ?_⟩
    intro hs
    have hne := mem_knownIds_ne_blank orders_l id hk
    have : id ∈ (log_rows.foldl
        (recStep (knownIds orders_l) (assignMap assignments) orders_l) {}).delivered := by
      rw [foldl_recStep_delivered]
      exact Or.inr ⟨hs, hne⟩
    rw [decide_eq_true_eq] at hnd
    exact hnd this
  · rintro ⟨hk, hns⟩
    refine ⟨hk, ?_⟩
    rw [decide_eq_true_eq]
    intro hmem
    rw [foldl_recStep_delivered] at hmem
    rcases hmem with hmem | ⟨hs, _⟩
    · simp at hmem
    · exact hns hs

/-- C5: `notDelivered` is exactly the set of known (non-blank) order
identifiers minus the identifiers appearing in any scan row, it is
sorted lexicographically, and every known identifier lies in exactly
one of the delivered set and `notDelivered`. -/
theorem c5_not_delivered (assignments : List (String × String))
    (orders_l : List NOrder) (log_rows : List ScanRow) (couriers : List PCourier) :
    (∀ id, id ∈ (reconcile assignments orders_l log_rows couriers).notDelivered ↔
        (id ∈ knownIds orders_l ∧ id ∉ scanIds log_rows)) ∧
    (reconcile assignments orders_l log_rows couriers).notDelivered.Pairwise
      (fun a b => a ≤ b) ∧
    (∀ id ∈ knownIds orders_l,
      (id ∈ (recFinal assignments orders_l log_rows).delivered ∧
        id ∉ (reconcile assignments orders_l log_rows couriers).notDelivered) ∨
      (id ∉ (recFinal assignments orders_l log_rows).delivered ∧
        id ∈ (reconcile assignments orders_l log_rows couriers).notDelivered)) := by
  refine ⟨mem_recon_notDelivered assignments orders_l log_rows couriers, ?_, ?_⟩
  · have hpw : ((reconcile assignments orders_l log_rows couriers).notDelivered).Pairwise
        (fun a b => strLtB b a = false) := by
      unfold reconcile
      simp only []
      exact pairwise_isort strLtB strLtB_asymm (fun x y z => strLtB_cross x y z) _
    refine hpw.imp ?_
    intro a b hab
    rw [strLtB, decide_eq_false_iff_not] at hab
    exact le_of_not_lt hab
  · intro id hk
    have hne := mem_knownIds_ne_blank orders_l id hk
    by_cases hs : id ∈ scanIds log_rows
    · left
      have hdel : id ∈ (recFinal assignments orders_l log_rows).delivered := by
        unfold recFinal
        rw [foldl_recStep_delivered]
        exact Or.inr ⟨hs, hne⟩
      refine ⟨hdel, ?_⟩
      intro hnd
      rw [mem_recon_notDelivered] at hnd
      exact hnd.2 hs
    · right
      constructor
      · intro hdel
        unfold recFinal at hdel
        rw [foldl_recStep_delivered] at hdel
        rcases hdel with hdel | ⟨hdel, _⟩
        · simp at hdel
        · exact hs hdel
      · rw [mem_recon_notDelivered]
        exact ⟨hk, hs⟩

def oW5a : NOrder := ⟨"A", "", "", "", .num 1, "", ""⟩

def oW5b : NOrder := ⟨"B", "", "", "", .num 1, "", ""⟩

def rowW5 : ScanRow := ⟨some "A", some "C1", none⟩

/-- Concrete instance of C5: orders `A` and `B`, only `A` scanned;
the known identifier `B` is not delivered and lies in
`notDelivered`. -/
theorem c5_witness :
    ("B" ∉ (recFinal [("A", "C1"), ("B", "C1")] [oW5a, oW5b] [rowW5]).delivered ∧
      "B" ∈ (reconcile [("A", "C1"), ("B", "C1")] [oW5a, oW5b] [rowW5] []).notDelivered) ∨
    ("B" ∈ (recFinal [("A", "C1"), ("B", "C1")] [oW5a, oW5b] [rowW5]).delivered ∧
      "B" ∉ (reconcile [("A", "C1"), ("B", "C1")] [oW5a, oW5b] [rowW5] []).notDelivered) :=
  Or.symm
    ((c5_not_delivered [("A", "C1"), ("B", "C1")] [oW5a, oW5b] [rowW5] []).2.2 "B"
      (by with_unfolding_all decide))

/-! ## C1: degradation and run completion -/

theorem chosenCourier_isSome (u : Usage) (l : List PCourier) (h : l ≠ []) :
    (chosenCourier u l).isSome = true := by
  unfold chosenCourier
  cases hs : isort (selKeyLt u) l with
  | nil => exact absurd ((isort_eq_nil_iff (selKeyLt u) l).mp hs) h
  | cons x t => rfl

theorem planStep_isOk (cs : List PCourier) (st : PlanState) (o : NOrder)
    (hw : (effWeight o).isSome = true) : ∃ st', planStep cs st o = .ok st' := by
  cases hweq : effWeight o with
  | none => rw [hweq] at hw; simp at hw
  | some w =>
    rw [planStep, hweq]
    simp only []
    by_cases h1 : chainZ cs o = []
    · rw [if_pos h1]
      exact ⟨_, rfl⟩
    · rw [if_neg h1]
      by_cases h2 : strLower o.paymenttype = "cod" ∧ chainC cs o = []
      · rw [if_pos h2]
        exact ⟨_, rfl⟩
      · rw [if_neg h2]
        by_cases h3 : chainE cs o = []
        · rw [if_pos h3]
          exact ⟨_, rfl⟩
        · rw [if_neg h3]
          by_cases h4 : chainK cs o st.usage w = []
          · rw [if_pos h4]
            exact ⟨_, rfl⟩
          · rw [if_neg h4]
            cases hch : chosenCourier st.usage (chainK cs o st.usage w) with
            | none =>
              have := chosenCourier_isSome st.usage _ h4
              rw [hch] at this
              exact absurd this (by simp)
            | some chosen => exact ⟨_, rfl⟩

theorem planRun_isOk (cs : List PCourier) (orders : List NOrder) :
    ∀ st : PlanState, (∀ o ∈ orders, (effWeight o).isSome = true) →
      ∃ st', planRun cs st orders = .ok st' := by
  induction orders with
  | nil => intro st _; exact ⟨st, rfl⟩
  | cons o rest ih =>
    intro st hall
    obtain ⟨st1, hstep⟩ := planStep_isOk cs st o (hall o (List.mem_cons_self _ _))
    obtain ⟨st', hrun⟩ := ih st1 (fun o' ho' => hall o' (List.mem_cons_of_mem _ ho'))
    refine ⟨st', ?_⟩
    rw [planRun, hstep]
    exact hrun

theorem dedupGo_mem (rest : List NOrder) :
    ∀ (seen : List NOrder) (ws : List String) (o : NOrder),
      o ∈ (dedupGo rest seen ws).1 → o ∈ seen ∨ o ∈ rest := by
  induction rest with
  | nil =>
    intro seen ws o ho
    rw [dedupGo] at ho
    exact Or.inl ho
  | cons r rest ih =>
    intro seen ws o ho
    rw [dedupGo] at ho
    cases hfind : seen.find? (fun s => s.orderid = r.orderid) with
    | none =>
      rw [hfind] at ho
      rcases ih _ _ o ho with hs | hr
      · rw [List.mem_append, List.mem_singleton] at hs
        rcases hs with hs | hs
        · exact Or.inl hs
        · exact Or.inr (hs ▸ List.mem_cons_self _ _)
      · exact Or.inr (List.mem_cons_of_mem _ hr)
    | some s =>
      rw [hfind] at ho
      rcases ih _ _ o ho with hs | hr
      · exact Or.inl hs
      · exact Or.inr (List.mem_cons_of_mem _ hr)

theorem dedup_subset (l : List NOrder) (o : NOrder) (h : o ∈ (dedup l).1) : o ∈ l := by
  rcases dedupGo_mem l [] [] o h with hs | hr
  · simp at hs
  · exact hr

def cexC1raw : RawOrder :=
  { orderid := some "A", city := some "X", weight := some (.str "abc") }

/-- Counterexample to C1 as stated: an order whose `weight` field
holds the non-numeric string `"abc"` does not degrade to a default —
`float("abc")` raises, so the run aborts before emitting the plan. -/
theorem c1_counterexample :
    isOkB (pipeline [cexC1raw] [] [] []) = false ∧
    effWeight (normalizeOrder [] cexC1raw) = none :=
  ⟨by with_unfolding_all rfl, by with_unfolding_all rfl⟩

/-- C1 (amended): missing fields degrade to defaults (an order record
with every key absent normalizes to blank strings and weight `0`), and
the core completes the run and emits all outputs for every
structurally well-shaped batch whose order weights are absent, falsy,
or parse as numbers; a non-numeric non-empty weight string instead
raises in `plan_assignments`. -/
theorem c1_completion (raw_orders : List RawOrder)
    (zones_map : List (String × String)) (couriers : List PCourier)
    (log_rows : List ScanRow)
    (hw : ∀ r ∈ raw_orders, (effWeight (normalizeOrder zones_map r)).isSome = true) :
    isOkB (pipeline raw_orders zones_map couriers log_rows) = true ∧
    normalizeOrder [] {} = ⟨"", "", "", "", .num 0, "", ""⟩ := by
  constructor
  · unfold pipeline
    simp only []
    have horders : ∀ o ∈ (dedup (normalize_orders raw_orders zones_map)).1,
        (effWeight o).isSome = true := by
      intro o ho
      have hmem := dedup_subset _ o ho
      unfold normalize_orders at hmem
      rw [List.mem_map] at hmem
      obtain ⟨r, hr, he⟩ := hmem
      rw [← he]
      exact hw r hr
    obtain ⟨st', hrun⟩ := planRun_isOk (isort courierPrioLt couriers)
      (dedup (normalize_orders raw_orders zones_map)).1 (planInit couriers) horders
    have hplan : plan_assignments (dedup (normalize_orders raw_orders zones_map)).1 couriers =
        .ok st' := hrun
    rw [hplan]
    rfl
  · rfl

/-- Concrete instance of C1 (amended): a batch with one well-formed
order runs to completion. -/
theorem c1_witness :
    isOkB (pipeline
        [{ orderid := some "1", city := some "Giza", paymenttype := some "COD",
           producttype := some "standard", weight := some (.num 1) }]
        [("giza", "Giza")] [⟨"C1", ["Giza"], true, some 10, some 1, []⟩]
        [⟨some "1", some "C1", none⟩]) = true ∧
    normalizeOrder [] {} = ⟨"", "", "", "", .num 0, "", ""⟩ :=
  c1_completion
    [{ orderid := some "1", city := some "Giza", paymenttype := some "COD",
       producttype := some "standard", weight := some (.num 1) }]
    [("giza", "Giza")] [⟨"C1", ["Giza"], true, some 10, some 1, []⟩]
    [⟨some "1", some "C1", none⟩]
    (by
      intro r hr
      rw [List.mem_singleton] at hr
      subst hr
      with_unfolding_all rfl)

end Logistics
